import Mathlib

/-!
Verification of the `byteyarn`/`ilex` lexer core.

This file gives a shallow embedding, in Lean 4, of the parts of the
repository that the verified claims are about:

* the affix lists of `ilex/src/lexer/rule.rs` (the `Affixes` struct and the
  `with_prefixes`/`with_suffixes` builder methods);
* the candidate-selection logic at the top of `emit` in
  `ilex/src/rt/emit2.rs` (sorting the DFA candidates and picking the first
  one whose rule-specific validation passes);
* the quoted-string scanner of `emit`, with its escape handlers
  (`Invalid`, `Basic`, `Fixed(n)`, `Bracketed(open, close)`) and the
  `marks` vector it produces;
* the comment scanner of `emit` (depth counting, newline cropping,
  unclosed diagnostics);
* the digit-block scanner of the `Digital` arm of `emit` (separator
  placement diagnostics);
* the driver loop of `ilex/src/rt/mod.rs` (`lex`), with its coalescing of
  adjacent unexpected code points into one diagnostic;
* the `is_close` branch of `emit` (unopened-bracket recovery);
* `RawYarn::from_slice_inlined_unchecked` of `byteyarn/src/raw.rs`
  (the 16-byte specialized path and the generic byte-copy path).

Texts are modelled as `List Char`; byte offsets are computed with
`Char.utf8Size`, mirroring the `len_utf8`/byte-offset arithmetic of the
source.  Machine integers are modelled as `Nat`/`Int` (all the quantities
involved are small indices, so no wrap-around arises in the modelled code
paths).
-/

namespace Ilex

/-- Byte length of a list of characters, mirroring Rust `str::len` /
`char::len_utf8` accounting. -/
def utf8Bytes (l : List Char) : Nat := l.foldr (fun c n => c.utf8Size + n) 0

@[simp] theorem utf8Bytes_nil : utf8Bytes [] = 0 := rfl

@[simp] theorem utf8Bytes_cons (c : Char) (l : List Char) :
    utf8Bytes (c :: l) = c.utf8Size + utf8Bytes l := rfl

theorem utf8Bytes_append (l₁ l₂ : List Char) :
    utf8Bytes (l₁ ++ l₂) = utf8Bytes l₁ + utf8Bytes l₂ := by
  induction l₁ with
  | nil => simp
  | cons c t ih => simp [ih]; omega

/-! ## Affixes (`ilex/src/lexer/rule.rs`, lines 196-269)

`Affixes` holds the declared prefixes and suffixes of a rule, together
with two latches recording whether any prefix (resp. suffix) has ever
been declared.  `Default` produces `[""]` on both sides with the latches
unset; `with_prefixes` clears the default exactly once (via
`mem::replace(&mut has_prefixes, true)`) and then extends the list. -/

structure Affixes where
  prefixes : List String
  suffixes : List String
  has_prefixes : Bool
  has_suffixes : Bool
deriving DecidableEq

/-- `impl Default for Affixes` (rule.rs lines 204-213). -/
def Affixes.default : Affixes :=
  { prefixes := [""], suffixes := [""], has_prefixes := false, has_suffixes := false }

/-- `with_prefixes` (rule.rs lines 237-249): if the `has_prefixes` latch was
unset, clear the list (discarding the `[""]` default) and set the latch;
then extend the list with the new entries. -/
def Affixes.withPrefixes (a : Affixes) (ys : List String) : Affixes :=
  { a with
    prefixes := (if a.has_prefixes then a.prefixes else []) ++ ys
    has_prefixes := true }

/-- `with_suffixes` (rule.rs lines 255-267), symmetric to `with_prefixes`. -/
def Affixes.withSuffixes (a : Affixes) (ys : List String) : Affixes :=
  { a with
    suffixes := (if a.has_suffixes then a.suffixes else []) ++ ys
    has_suffixes := true }

/-- A sequence of `with_prefixes` calls applied to the default affix set. -/
def applyPreCalls (yss : List (List String)) : Affixes :=
  yss.foldl Affixes.withPrefixes Affixes.default

/-- A sequence of `with_suffixes` calls applied to the default affix set. -/
def applySufCalls (yss : List (List String)) : Affixes :=
  yss.foldl Affixes.withSuffixes Affixes.default

theorem withPrefixes_of_latched (a : Affixes) (ys : List String)
    (h : a.has_prefixes = true) :
    (a.withPrefixes ys).prefixes = a.prefixes ++ ys := by
  simp [Affixes.withPrefixes, h]

theorem withSuffixes_of_latched (a : Affixes) (ys : List String)
    (h : a.has_suffixes = true) :
    (a.withSuffixes ys).suffixes = a.suffixes ++ ys := by
  simp [Affixes.withSuffixes, h]

theorem applyPreCalls_cons_join (ys : List String) (yss : List (List String)) :
    (applyPreCalls (ys :: yss)).prefixes = (ys :: yss).flatten ∧
    (applyPreCalls (ys :: yss)).has_prefixes = true := by
  suffices h : ∀ (zss : List (List String)) (a : Affixes), a.has_prefixes = true →
      (zss.foldl Affixes.withPrefixes a).prefixes = a.prefixes ++ zss.flatten ∧
      (zss.foldl Affixes.withPrefixes a).has_prefixes = true by
    have h0 : (Affixes.default.withPrefixes ys).prefixes = ys := by
      simp [Affixes.withPrefixes, Affixes.default]
    have h1 : (Affixes.default.withPrefixes ys).has_prefixes = true := rfl
    have := h yss (Affixes.default.withPrefixes ys) h1
    simpa [applyPreCalls, h0] using this
  intro zss
  induction zss with
  | nil => intro a ha; simp [ha]
  | cons zs zss ih =>
      intro a ha
      have h2 : (a.withPrefixes zs).has_prefixes = true := rfl
      have := ih (a.withPrefixes zs) h2
      simpa [withPrefixes_of_latched a zs ha] using this

theorem applySufCalls_cons_join (ys : List String) (yss : List (List String)) :
    (applySufCalls (ys :: yss)).suffixes = (ys :: yss).flatten ∧
    (applySufCalls (ys :: yss)).has_suffixes = true := by
  suffices h : ∀ (zss : List (List String)) (a : Affixes), a.has_suffixes = true →
      (zss.foldl Affixes.withSuffixes a).suffixes = a.suffixes ++ zss.flatten ∧
      (zss.foldl Affixes.withSuffixes a).has_suffixes = true by
    have h0 : (Affixes.default.withSuffixes ys).suffixes = ys := by
      simp [Affixes.withSuffixes, Affixes.default]
    have h1 : (Affixes.default.withSuffixes ys).has_suffixes = true := rfl
    have := h yss (Affixes.default.withSuffixes ys) h1
    simpa [applySufCalls, h0] using this
  intro zss
  induction zss with
  | nil => intro a ha; simp [ha]
  | cons zs zss ih =>
      intro a ha
      have h2 : (a.withSuffixes zs).has_suffixes = true := rfl
      have := ih (a.withSuffixes zs) h2
      simpa [withSuffixes_of_latched a zs ha] using this

/-- **C9.**  Before any prefix (resp. suffix) is added, the affix list is
exactly `[""]`; the first `with_prefixes` call discards that default and
installs exactly the given entries, every later call appends its entries,
so after a nonempty sequence of calls the list is the concatenation of all
given entries — in particular the empty prefix is accepted afterwards iff
`""` was explicitly added by one of the calls. -/
theorem claim9_affix_latch :
    (Affixes.default.prefixes = [""] ∧ Affixes.default.suffixes = [""]) ∧
    (∀ ys : List String, (Affixes.default.withPrefixes ys).prefixes = ys ∧
      (Affixes.default.withSuffixes ys).suffixes = ys) ∧
    (∀ (a : Affixes) (ys : List String), a.has_prefixes = true →
      (a.withPrefixes ys).prefixes = a.prefixes ++ ys) ∧
    (∀ (a : Affixes) (ys : List String), a.has_suffixes = true →
      (a.withSuffixes ys).suffixes = a.suffixes ++ ys) ∧
    (∀ yss : List (List String), yss ≠ [] →
      (applyPreCalls yss).prefixes = yss.flatten ∧
      ((("" : String) ∈ (applyPreCalls yss).prefixes) ↔ ∃ l ∈ yss, ("" : String) ∈ l)) ∧
    (∀ yss : List (List String), yss ≠ [] →
      (applySufCalls yss).suffixes = yss.flatten ∧
      ((("" : String) ∈ (applySufCalls yss).suffixes) ↔ ∃ l ∈ yss, ("" : String) ∈ l)) := by
  refine ⟨⟨rfl, rfl⟩, ?_, ?_, ?_, ?_, ?_⟩
  · intro ys
    constructor
    · simp [Affixes.withPrefixes, Affixes.default]
    · simp [Affixes.withSuffixes, Affixes.default]
  · exact withPrefixes_of_latched
  · exact withSuffixes_of_latched
  · intro yss hne
    match yss with
    | ys :: yss =>
        have h := applyPreCalls_cons_join ys yss
        refine ⟨h.1, ?_⟩
        rw [h.1]
        simp [List.mem_flatten]
  · intro yss hne
    match yss with
    | ys :: yss =>
        have h := applySufCalls_cons_join ys yss
        refine ⟨h.1, ?_⟩
        rw [h.1]
        simp [List.mem_flatten]

/-- Witness for `claim9_affix_latch`: two concrete `with_prefixes` calls. -/
theorem claim9_affix_latch_witness :
    (applyPreCalls [[("a" : String)], ["", "b"]]).prefixes = ["a", "", "b"] ∧
    ((("" : String) ∈ (applyPreCalls [[("a" : String)], ["", "b"]]).prefixes) ↔
      ∃ l ∈ [[("a" : String)], ["", "b"]], ("" : String) ∈ l) :=
  (claim9_affix_latch.2.2.2.2.1 [["a"], ["", "b"]] (by simp))

/-! ## Candidate selection (`ilex/src/rt/emit2.rs`, lines 56-193)

The DFA search of `emit` returns a set of candidate lexemes
(`Lexeme2 { lexeme, is_close }`).  `emit` sorts them
(`match_.candidates.sort_unstable()`), walks the sorted list, and picks
the first candidate whose rule-specific validation passes
(`best = Some(c); break`); if none passes it falls back to the first —
i.e. smallest — candidate (`best.unwrap_or(match_.candidates[0])`). -/

/-- A DFA match candidate: the lexeme index of the matched rule and
whether the bracket's closing side matched.  Mirrors `Lexeme2` of
`ilex/src/rt/dfa.rs`. -/
structure Lexeme2 where
  lexeme : Int
  is_close : Bool
deriving DecidableEq

/-- Modelled from the spec: the `Ord` instance of `Lexeme2` lives in
`ilex/src/rt/dfa.rs`, which is not part of the sources at hand; the spec
states "candidates are returned sorted by `(lexeme_id, is_close)`", so
the order is lexicographic on the lexeme index and then on the side,
with `is_close = false` (the opening side) ordered first. -/
def candLE (a b : Lexeme2) : Prop :=
  a.lexeme < b.lexeme ∨ (a.lexeme = b.lexeme ∧ (a.is_close = true → b.is_close = true))

instance : DecidableRel candLE := fun a b => by
  unfold candLE; infer_instance

theorem candLE_refl (a : Lexeme2) : candLE a a := Or.inr ⟨rfl, fun h => h⟩

instance : IsTotal Lexeme2 candLE where
  total a b := by
    rcases lt_trichotomy a.lexeme b.lexeme with h | h | h
    · exact Or.inl (Or.inl h)
    · cases hb : b.is_close
      · cases ha : a.is_close
        · exact Or.inl (Or.inr ⟨h, by simp [ha]⟩)
        · exact Or.inr (Or.inr ⟨h.symm, by simp [hb, ha]⟩)
      · exact Or.inl (Or.inr ⟨h, by simp [hb]⟩)
    · exact Or.inr (Or.inl h)

instance : IsTrans Lexeme2 candLE where
  trans a b c hab hbc := by
    rcases hab with h | ⟨he, hi⟩ <;> rcases hbc with h' | ⟨he', hi'⟩
    · exact Or.inl (h.trans h')
    · exact Or.inl (he' ▸ h)
    · exact Or.inl (he ▸ h')
    · exact Or.inr ⟨he.trans he', fun hx => hi' (hi hx)⟩

/-- The candidate selection of `emit` (emit2.rs lines 56-193): sort the
candidates, find the first valid one, and fall back to the head of the
sorted list (the code's `match_.candidates[0]` after the in-place sort)
when none validates.  The rule-specific validation of the `'verify` loop
is abstracted as the predicate `valid`. -/
def chooseBest (valid : Lexeme2 → Bool) (cands : List Lexeme2) : Option Lexeme2 :=
  let s := List.insertionSort candLE cands
  ((s.find? valid).orElse (fun _ => s.head?))

theorem find?_sorted_min {valid : Lexeme2 → Bool} :
    ∀ {s : List Lexeme2}, s.Sorted candLE → ∀ {b}, s.find? valid = some b →
      ∀ c ∈ s, valid c = true → candLE b c := by
  intro s
  induction s with
  | nil => intro _ b hb; simp at hb
  | cons a t ih =>
      intro hs b hb c hc hvc
      rcases List.sorted_cons.mp hs with ⟨ha, ht⟩
      by_cases hva : valid a = true
      · rw [List.find?_cons_of_pos _ hva] at hb
        cases hb
        rcases List.mem_cons.mp hc with hc | hc
        · exact hc ▸ candLE_refl _
        · exact ha c hc
      · rw [List.find?_cons_of_neg _ hva] at hb
        rcases List.mem_cons.mp hc with hc | hc
        · exact absurd (hc ▸ hvc) hva
        · exact ih ht hb c hc hvc

theorem sorted_head_min {s : List Lexeme2} (hs : s.Sorted candLE) {b : Lexeme2}
    (hb : s.head? = some b) : ∀ c ∈ s, candLE b c := by
  cases s with
  | nil => simp at hb
  | cons a t =>
      cases hb
      intro c hc
      rcases List.mem_cons.mp hc with hc | hc
      · exact hc ▸ candLE_refl _
      · exact (List.sorted_cons.mp hs).1 c hc

/-- **C1.**  The emitter sorts the DFA candidates by
`(lexeme, is_close)` and emits the first candidate whose rule-specific
validation passes: the chosen candidate is a member of the candidate set,
it is `candLE`-minimal among all valid candidates (so among equally long
matches the rule declared earliest wins and, within one bracket lexeme,
the opening side beats the closing side), and when no candidate
validates the overall smallest candidate is kept (and diagnostics are
then generated against it). -/
theorem claim1_candidate_order (valid : Lexeme2 → Bool) (cands : List Lexeme2)
    (h : cands ≠ []) :
    ∃ b, chooseBest valid cands = some b ∧ b ∈ cands ∧
      (∀ c ∈ cands, valid c = true → valid b = true ∧ candLE b c) ∧
      ((∀ c ∈ cands, valid c = false) → ∀ c ∈ cands, candLE b c) := by
  set s := List.insertionSort candLE cands with hsdef
  have hsort : s.Sorted candLE := List.sorted_insertionSort candLE cands
  have hmem : ∀ x, x ∈ s ↔ x ∈ cands := fun x => List.mem_insertionSort candLE
  cases hf : s.find? valid with
  | some b =>
      refine ⟨b, ?_, ?_, ?_, ?_⟩
      · simp [chooseBest, ← hsdef, hf, Option.orElse]
      · exact (hmem b).mp (List.mem_of_find?_eq_some hf)
      · intro c hc hvc
        exact ⟨List.find?_some hf, find?_sorted_min hsort hf c ((hmem c).mpr hc) hvc⟩
      · intro hall c hc
        have : valid b = true := List.find?_some hf
        have hb : b ∈ cands := (hmem b).mp (List.mem_of_find?_eq_some hf)
        exact absurd this (by simp [hall b hb])
  | none =>
      have hsne : s ≠ [] := by
        intro hnil
        apply h
        cases cands with
        | nil => rfl
        | cons a t =>
            have : a ∈ s := (hmem a).mpr (List.mem_cons_self a t)
            simp [hnil] at this
      obtain ⟨b, t, hbt⟩ := List.exists_cons_of_ne_nil hsne
      have hhead : s.head? = some b := by rw [hbt]; rfl
      refine ⟨b, ?_, ?_, ?_, ?_⟩
      · simp [chooseBest, ← hsdef, hf, Option.orElse, hhead]
      · exact (hmem b).mp (by rw [hbt]; exact List.mem_cons_self b t)
      · intro c hc hvc
        exact absurd hvc (List.find?_eq_none.mp hf c ((hmem c).mpr hc))
      · intro _ c hc
        exact sorted_head_min hsort hhead c ((hmem c).mpr hc)

/-- Witness for `claim1_candidate_order`: with candidates
`{(lexeme 1, open), (lexeme 0, close), (lexeme 0, open)}` and validation
accepting everything, the opening side of lexeme 0 wins. -/
theorem claim1_candidate_order_witness :
    ∃ b, chooseBest (fun _ => true)
        [⟨1, false⟩, ⟨0, true⟩, ⟨0, false⟩] = some b ∧
      b ∈ [(⟨1, false⟩ : Lexeme2), ⟨0, true⟩, ⟨0, false⟩] ∧
      (∀ c ∈ [(⟨1, false⟩ : Lexeme2), ⟨0, true⟩, ⟨0, false⟩],
        (fun (_ : Lexeme2) => true) c = true → (fun (_ : Lexeme2) => true) b = true ∧ candLE b c) ∧
      ((∀ c ∈ [(⟨1, false⟩ : Lexeme2), ⟨0, true⟩, ⟨0, false⟩],
        (fun (_ : Lexeme2) => true) c = false) →
        ∀ c ∈ [(⟨1, false⟩ : Lexeme2), ⟨0, true⟩, ⟨0, false⟩], candLE b c) :=
  claim1_candidate_order (fun _ => true) [⟨1, false⟩, ⟨0, true⟩, ⟨0, false⟩] (by simp)

/-! ## Quoted-string escapes (`ilex/src/rt/emit2.rs`, lines 611-759)

The quoted arm of `emit` scans the string body producing a `marks`
vector.  Escape rules are the four variants matched by `emit`
(`rule::Escape::{Invalid, Basic, Fixed, Bracketed}`); the `parse`
callbacks of the rule model play no role in `emit` and are omitted.
Texts are `List Char`; cursors are byte offsets (`Char.utf8Size`). -/

inductive Escape where
  | invalid
  | basic
  | fixed (chars : Nat)
  | bracketed (op cl : List Char)
deriving DecidableEq

/-- The diagnostics issued through `builtins().invalid_escape(..)` in the
four escape arms (emit2.rs lines 649, 678, 692, 703). -/
inductive EscDiag where
  | invalidEscape
  | expectedExactly (chars : Nat)
  | expectedOpen
  | expectedClose
deriving DecidableEq

/-- `str::find` on a haystack: byte offset of the first occurrence of
`needle` (at a character boundary), if any.  Used to model
`lexer.text(..cursor).find(close.as_str())` (emit2.rs line 702). -/
def findSubBytes (needle : List Char) : List Char → Option Nat
  | [] => if needle = [] then some 0 else none
  | c :: t =>
      if needle.isPrefixOf (c :: t) then some 0
      else (findSubBytes needle t).map (fun n => c.utf8Size + n)

/-- Splitting a text at a byte offset, as Rust slicing does: `none` when
the offset is past the end or not a character boundary (where the Rust
code would panic). -/
def takeBytes : Nat → List Char → Option (List Char × List Char)
  | 0, l => some ([], l)
  | n + 1, [] => none
  | n + 1, c :: t =>
      if c.utf8Size ≤ n + 1 then
        (takeBytes (n + 1 - c.utf8Size) t).map (fun p => (c :: p.1, p.2))
      else none

/-- The `Fixed(chars)` loop (emit2.rs lines 658-675): consume up to
`chars` code points, checking for the closer before every one and
stopping without consuming it; also stop at end of input.  Returns the
final cursor, the consumed characters, and the remaining text. -/
def fixedLoop (close : List Char) : Nat → List Char → Nat → Nat × List Char × List Char
  | 0, rem, cur => (cur, [], rem)
  | n + 1, rem, cur =>
      if close.isPrefixOf rem then (cur, [], rem)
      else
        match rem with
        | [] => (cur, [], rem)
        | c :: rest =>
            let r := fixedLoop close n rest (cur + c.utf8Size)
            (r.1, c :: r.2.1, r.2.2)

/-- One escape, after its key has been consumed (emit2.rs lines 647-712).
`pre` is the whole file text before `cursor` (the code consults it in the
`Bracketed` arm via `lexer.text(..cursor)`), `rest` the text from
`cursor` on.  Returns the three argument marks, the diagnostics, the
consumed characters and the remaining text; `none` models a Rust panic
(out-of-range or non-boundary slice). -/
def runEscape (close : List Char) (pre : List Char) (cursor : Nat)
    (rest : List Char) :
    Escape → Option ((Nat × Nat × Nat) × List EscDiag × List Char × List Char)
  | .invalid => some ((cursor, cursor, cursor), [.invalidEscape], [], rest)
  | .basic => some ((cursor, cursor, cursor), [], [], rest)
  | .fixed chars =>
      let r := fixedLoop close chars rest cursor
      some ((cursor, r.1, r.1),
        if r.2.1.length = chars then [] else [.expectedExactly chars],
        r.2.1, r.2.2)
  | .bracketed op cl =>
      if op.isPrefixOf rest then
        let rest₁ := rest.drop op.length
        let cursor₁ := cursor + utf8Bytes op
        match findSubBytes cl (pre ++ op) with
        | none => some ((cursor₁, cursor₁, cursor₁), [.expectedClose], op, rest₁)
        | some len =>
            (takeBytes (len + utf8Bytes cl) rest₁).map (fun p =>
              ((cursor₁, cursor₁ + len, cursor₁ + len + utf8Bytes cl),
                [], op ++ p.1, p.2))
      else some ((cursor, cursor, cursor), [.expectedOpen], [], rest)

/-- Modelled from the spec: `Bracketed(open, close)` is specified as
"require `open`; then scan until `close`; diagnose if missing", i.e. the
search for `close` runs over the text *following* the argument start.
This is the intended behaviour that emit2.rs line 702 was to implement. -/
def runEscapeBracketedIntended (pre : List Char) (cursor : Nat)
    (rest : List Char) (op cl : List Char) :
    Option ((Nat × Nat × Nat) × List EscDiag × List Char × List Char) :=
  if op.isPrefixOf rest then
    let rest₁ := rest.drop op.length
    let cursor₁ := cursor + utf8Bytes op
    match findSubBytes cl rest₁ with
    | none => some ((cursor₁, cursor₁, cursor₁), [.expectedClose], op, rest₁)
    | some len =>
        (takeBytes (len + utf8Bytes cl) rest₁).map (fun p =>
          ((cursor₁, cursor₁ + len, cursor₁ + len + utf8Bytes cl),
            [], op ++ p.1, p.2))
  else some ((cursor, cursor, cursor), [.expectedOpen], [], rest)

theorem fixedLoop_spec (close : List Char) :
    ∀ (n : Nat) (rem : List Char) (cur : Nat),
      (fixedLoop close n rem cur).2.1.length ≤ n ∧
      rem = (fixedLoop close n rem cur).2.1 ++ (fixedLoop close n rem cur).2.2 ∧
      (fixedLoop close n rem cur).1 = cur + utf8Bytes (fixedLoop close n rem cur).2.1 ∧
      ((fixedLoop close n rem cur).2.1.length < n →
        close.isPrefixOf (fixedLoop close n rem cur).2.2 ∨
          (fixedLoop close n rem cur).2.2 = []) := by
  intro n
  induction n with
  | zero => intro rem cur; simp [fixedLoop]
  | succ n ih =>
      intro rem cur
      by_cases hp : close.isPrefixOf rem
      · simp [fixedLoop, hp]
      · cases rem with
        | nil => simp [fixedLoop, hp]
        | cons c rest =>
            have h := ih rest (cur + c.utf8Size)
            simp only [fixedLoop, hp, if_false]
            refine ⟨by simpa using Nat.succ_le_succ h.1, ?_, ?_, ?_⟩
            · simpa using h.2.1
            · simp [h.2.2.1]; omega
            · intro hlt
              exact h.2.2.2 (by simpa using Nat.lt_of_succ_lt_succ hlt)

/-- **C6.**  For a `Fixed(n)` escape the lexer consumes at most `n` code
points after the escape key, stopping early — without consuming it — as
soon as the remaining text starts with the closer or the input runs out;
it diagnoses "expected exactly n characters" exactly when fewer than `n`
code points were consumed, and the three argument marks are
`(argument start, cursor after the consumed characters, that cursor)`. -/
theorem claim6_fixed_escape (n : Nat) (close rem pre : List Char) (cur : Nat) :
    ∃ cur2 moved rest2 ds,
      fixedLoop close n rem cur = (cur2, moved, rest2) ∧
      runEscape close pre cur rem (Escape.fixed n) =
        some ((cur, cur2, cur2), ds, moved, rest2) ∧
      moved.length ≤ n ∧
      rem = moved ++ rest2 ∧
      cur2 = cur + utf8Bytes moved ∧
      (moved.length < n → close.isPrefixOf rest2 ∨ rest2 = []) ∧
      (ds = [EscDiag.expectedExactly n] ↔ moved.length < n) ∧
      (ds = [] ↔ moved.length = n) := by
  have h := fixedLoop_spec close n rem cur
  refine ⟨(fixedLoop close n rem cur).1, (fixedLoop close n rem cur).2.1,
    (fixedLoop close n rem cur).2.2, _, rfl, rfl, h.1, h.2.1, h.2.2.1, h.2.2.2, ?_, ?_⟩
  · by_cases he : (fixedLoop close n rem cur).2.1.length = n <;> simp [he] <;> omega
  · by_cases he : (fixedLoop close n rem cur).2.1.length = n <;> simp [he]

/-- **C2** (supporting evaluation).  On the file `"\u{41}"` with the
escape `\u ↦ Bracketed("{", "}")` and string closer `"`, the code's
`Bracketed` arm — which searches for `}` in `lexer.text(..cursor)`, the
text *before* the cursor — fails to find the closer even though `}` does
occur two bytes past the argument start, so it issues an
`invalid_escape` diagnostic and produces the collapsed marks
`(4, 4, 4)`; the spec-intended scan (searching the text after the
argument start) succeeds with marks `(4, 6, 7)` and no diagnostic. -/
theorem claim2_bracketed_find_bug :
    runEscape [('"' : Char)] [('"' : Char), '\\', 'u'] 3 ['{', '4', '1', '}', '"']
        (Escape.bracketed ['{'] ['}']) =
      some ((4, 4, 4), [EscDiag.expectedClose], ['{'], ['4', '1', '}', '"']) ∧
    findSubBytes [('}' : Char)] ['4', '1', '}', '"'] = some 2 ∧
    runEscapeBracketedIntended [('"' : Char), '\\', 'u'] 3 ['{', '4', '1', '}', '"']
        ['{'] ['}'] =
      some ((4, 6, 7), [], ['{', '4', '1', '}'], ['"']) := by
  refine ⟨by decide, by decide, by decide⟩

/-! ## The quoted-string scanner and its `marks` vector
(`ilex/src/rt/emit2.rs`, lines 611-724)

The scanner starts just past the open bracket with
`chunk_start = cursor = end` and `marks = vec![chunk_start]`.  On every
step it first checks for the closer; otherwise it looks up the longest
escape-key prefix in the escape trie, consuming one literal code point
when there is none.  Each escape pushes the pending literal-chunk mark
unconditionally, then the end-of-key mark, then the three argument marks
from the escape handler. -/

structure ScanSt where
  /-- The file text before `cursor` (consulted by the `Bracketed` arm). -/
  pre : List Char
  /-- Byte offset of the scan cursor. -/
  cursor : Nat
  /-- The text from `cursor` on. -/
  rest : List Char
  /-- `chunk_start`: byte offset where the current literal chunk began. -/
  chunkStart : Nat
  marks : List Nat
  /-- Number of `invalid_escape` diagnostics issued so far. -/
  errs : Nat
deriving DecidableEq

structure ScanRes where
  marks : List Nat
  /-- Final cursor of the loop: the byte offset where the closer match
  began when `closed`, the end-of-input offset otherwise. -/
  stop : Nat
  closed : Bool
  errs : Nat
deriving DecidableEq

/-- `Trie::longest_prefix`: the escape entry whose key is the longest
prefix of the remaining text (trie keys are distinct, so the maximum is
unambiguous). -/
def longestKey (escapes : List (List Char × Escape)) (rest : List Char) :
    Option (List Char × Escape) :=
  escapes.foldl
    (fun acc e =>
      if e.1.isPrefixOf rest then
        match acc with
        | none => some e
        | some a => if a.1.length < e.1.length then some e else acc
      else acc)
    none

/-- The body loop of the `Quoted` arm (emit2.rs lines 617-717), with
fuel for termination.  `none` models divergence or a Rust panic. -/
def quotedScan (escapes : List (List Char × Escape)) (close : List Char) :
    Nat → ScanSt → Option ScanRes
  | 0, _ => none
  | fuel + 1, st =>
      if close.isPrefixOf st.rest then
        some { marks := if st.chunkStart < st.cursor then st.marks ++ [st.cursor] else st.marks
               stop := st.cursor, closed := true, errs := st.errs }
      else
        match longestKey escapes st.rest with
        | none =>
            match st.rest with
            | [] => some { marks := st.marks, stop := st.cursor, closed := false, errs := st.errs }
            | c :: t =>
                quotedScan escapes close fuel
                  { pre := st.pre ++ [c], cursor := st.cursor + c.utf8Size, rest := t
                    chunkStart := st.chunkStart, marks := st.marks, errs := st.errs }
        | some (key, esc) =>
            let cursor₁ := st.cursor + utf8Bytes key
            let pre₁ := st.pre ++ key
            match runEscape close pre₁ cursor₁ (st.rest.drop key.length) esc with
            | none => none
            | some (m, ds, moved, rest₂) =>
                quotedScan escapes close fuel
                  { pre := pre₁ ++ moved, cursor := m.2.2, rest := rest₂
                    chunkStart := m.2.2
                    marks := st.marks ++ [st.cursor, cursor₁, m.1, m.2.1, m.2.2]
                    errs := st.errs + ds.length }

/-- The mark-group grammar of a quoted token, read at `chunk_start = cs`
with the closer starting at byte offset `cp`: either the final literal
chunk is empty and no further mark follows, or a single final chunk mark
`cp` follows, or a group of five marks follows — the pending chunk mark
`c`, the end-of-key mark `k`, and the three argument marks `a ≤ b ≤ e`,
after which scanning resumes with `chunk_start = e`. -/
inductive MarksTail (cp : Nat) : Nat → List Nat → Prop
  | nil : MarksTail cp cp []
  | last (cs : Nat) : cs < cp → MarksTail cp cs [cp]
  | esc (cs c k a b e : Nat) (t : List Nat) :
      cs ≤ c → c ≤ k → k ≤ a → a ≤ b → b ≤ e →
      MarksTail cp e t → MarksTail cp cs (c :: k :: a :: b :: e :: t)

theorem takeBytes_spec :
    ∀ (l : List Char) (n : Nat) (a b : List Char),
      takeBytes n l = some (a, b) → l = a ++ b ∧ utf8Bytes a = n := by
  intro l
  induction l with
  | nil =>
      intro n a b h
      cases n with
      | zero =>
          simp only [takeBytes, Option.some_inj, Prod.mk.injEq] at h
          obtain ⟨h1, h2⟩ := h
          subst h1; subst h2; simp
      | succ n => simp [takeBytes] at h
  | cons c t ih =>
      intro n a b h
      cases n with
      | zero =>
          simp only [takeBytes, Option.some_inj, Prod.mk.injEq] at h
          obtain ⟨h1, h2⟩ := h
          subst h1; subst h2; simp
      | succ n =>
          simp only [takeBytes] at h
          by_cases hsz : c.utf8Size ≤ n + 1
          · rw [if_pos hsz] at h
            cases hrec : takeBytes (n + 1 - c.utf8Size) t with
            | none => rw [hrec] at h; simp at h
            | some p =>
                rw [hrec] at h
                simp only [Option.map_some', Option.some_inj, Prod.mk.injEq] at h
                obtain ⟨h1, h2⟩ := h
                obtain ⟨g1, g2⟩ := ih _ p.1 p.2 (by rw [hrec])
                subst h1; subst h2
                refine ⟨by simp [g1], ?_⟩
                simp only [utf8Bytes_cons, g2]
                omega
          · rw [if_neg hsz] at h
            simp at h

theorem runEscape_marks {close pre : List Char} {cur : Nat} {rest : List Char}
    {esc : Escape} {m : Nat × Nat × Nat} {ds : List EscDiag}
    {moved rest₂ : List Char}
    (h : runEscape close pre cur rest esc = some (m, ds, moved, rest₂)) :
    cur ≤ m.1 ∧ m.1 ≤ m.2.1 ∧ m.2.1 ≤ m.2.2 ∧ m.2.2 = cur + utf8Bytes moved := by
  cases esc with
  | invalid =>
      simp only [runEscape, Option.some_inj, Prod.mk.injEq] at h
      obtain ⟨hm, _, hmoved, _⟩ := h
      subst hm; subst hmoved; simp
  | basic =>
      simp only [runEscape, Option.some_inj, Prod.mk.injEq] at h
      obtain ⟨hm, _, hmoved, _⟩ := h
      subst hm; subst hmoved; simp
  | fixed chars =>
      have hs := fixedLoop_spec close chars rest cur
      simp only [runEscape, Option.some_inj, Prod.mk.injEq] at h
      obtain ⟨hm, _, hmoved, _⟩ := h
      subst hm; subst hmoved
      have he := hs.2.2.1
      dsimp only
      exact ⟨le_refl _, by omega, le_refl _, he⟩
  | bracketed op cl =>
      simp only [runEscape] at h
      by_cases hop : op.isPrefixOf rest
      · rw [if_pos hop] at h
        cases hfind : findSubBytes cl (pre ++ op) with
        | none =>
            rw [hfind] at h
            simp only [Option.some_inj, Prod.mk.injEq] at h
            obtain ⟨hm, _, hmoved, _⟩ := h
            subst hm; subst hmoved
            exact ⟨Nat.le_add_right .., le_refl _, le_refl _, rfl⟩
        | some len =>
            rw [hfind] at h
            dsimp only at h
            cases htake : takeBytes (len + utf8Bytes cl) (rest.drop op.length) with
            | none => rw [htake] at h; simp at h
            | some p =>
                rw [htake] at h
                simp only [Option.map_some', Option.some_inj, Prod.mk.injEq] at h
                obtain ⟨hm, _, hmoved, _⟩ := h
                subst hm; subst hmoved
                obtain ⟨_, hbytes⟩ := takeBytes_spec _ _ p.1 p.2 (by rw [htake])
                refine ⟨Nat.le_add_right .., Nat.le_add_right .., Nat.le_add_right .., ?_⟩
                simp only [utf8Bytes_append, hbytes]
                omega
      · rw [if_neg hop] at h
        simp only [Option.some_inj, Prod.mk.injEq] at h
        obtain ⟨hm, _, hmoved, _⟩ := h
        subst hm; subst hmoved
        exact ⟨le_refl _, le_refl _, le_refl _, by simp⟩

theorem marksTail_getLast {cp cs : Nat} {t : List Nat}
    (h : MarksTail cp cs t) : (cs :: t).getLast? = some cp := by
  induction h with
  | nil => rfl
  | last cs h => rfl
  | esc cs c k a b e t h1 h2 h3 h4 h5 h6 ih =>
      simpa only [List.getLast?_cons_cons] using ih

theorem quotedScan_marks (escapes : List (List Char × Escape)) (close : List Char) :
    ∀ (fuel : Nat) (st : ScanSt) (res : ScanRes),
      quotedScan escapes close fuel st = some res → res.closed = true →
      st.chunkStart ≤ st.cursor →
      ∃ t, res.marks = st.marks ++ t ∧ MarksTail res.stop st.chunkStart t := by
  intro fuel
  induction fuel with
  | zero => intro st res h hc hle; simp [quotedScan] at h
  | succ fuel ih =>
      intro st res h hc hle
      rw [quotedScan] at h
      by_cases hcl : close.isPrefixOf st.rest
      · rw [if_pos hcl] at h
        simp only [Option.some_inj] at h
        subst h
        by_cases hlt : st.chunkStart < st.cursor
        · refine ⟨[st.cursor], ?_, ?_⟩
          · simp [hlt]
          · exact MarksTail.last _ hlt
        · have heq : st.chunkStart = st.cursor := le_antisymm hle (not_lt.mp hlt)
          refine ⟨[], ?_, ?_⟩
          · simp [hlt]
          · show MarksTail st.cursor st.chunkStart []
            rw [heq]
            exact MarksTail.nil
      · rw [if_neg hcl] at h
        cases hk : longestKey escapes st.rest with
        | none =>
            rw [hk] at h
            dsimp only at h
            cases hrest : st.rest with
            | nil =>
                rw [hrest] at h
                dsimp only at h
                simp only [Option.some_inj] at h
                subst h
                simp at hc
            | cons c t =>
                rw [hrest] at h
                dsimp only at h
                obtain ⟨t', h1, h2⟩ := ih _ res h hc (by dsimp only; omega)
                exact ⟨t', by simpa using h1, h2⟩
        | some ke =>
            obtain ⟨key, esc⟩ := ke
            rw [hk] at h
            dsimp only at h
            cases hre : runEscape close (st.pre ++ key) (st.cursor + utf8Bytes key)
                (st.rest.drop key.length) esc with
            | none => rw [hre] at h; dsimp only at h; simp at h
            | some out =>
                obtain ⟨m, ds, moved, rest₂⟩ := out
                rw [hre] at h
                dsimp only at h
                have hm := runEscape_marks hre
                obtain ⟨t', h1, h2⟩ := ih _ res h hc (by dsimp only; exact le_refl _)
                refine ⟨[st.cursor, st.cursor + utf8Bytes key, m.1, m.2.1, m.2.2] ++ t', ?_, ?_⟩
                · rw [h1]; dsimp only; simp
                · exact MarksTail.esc _ _ _ _ _ _ _ hle (Nat.le_add_right ..)
                    hm.1 hm.2.1 hm.2.2.1 h2

/-- **C3.**  For a quoted-token scan that finds its closer, the `marks`
vector starts with the byte offset just past the open bracket
(`chunk_start = cursor = end`, the initial singleton mark); afterwards it
decomposes into groups per `MarksTail`: one end-offset mark per literal
chunk, and five marks around each escape — the pending chunk mark
(pushed unconditionally, so adjacent escapes are separated by an
empty-chunk mark), the end-of-key mark, and the three argument marks —
and the last mark equals the byte offset at which the close-bracket
match begins. -/
theorem claim3_quoted_marks (escapes : List (List Char × Escape))
    (close : List Char) (fuel : Nat) (pre rest : List Char) (c₀ : Nat)
    (res : ScanRes)
    (h : quotedScan escapes close fuel ⟨pre, c₀, rest, c₀, [c₀], 0⟩ = some res)
    (hc : res.closed = true) :
    ∃ t, res.marks = c₀ :: t ∧ MarksTail res.stop c₀ t ∧
      res.marks.getLast? = some res.stop := by
  obtain ⟨t, h1, h2⟩ := quotedScan_marks escapes close fuel _ res h hc (le_refl _)
  refine ⟨t, by simpa using h1, h2, ?_⟩
  rw [h1]
  simpa using marksTail_getLast h2

/-- Witness for `claim3_quoted_marks`: the body `a\nb` of `"a\nb"` with
the `Basic` escape `\n`, scanned from byte offset 1. -/
theorem claim3_quoted_marks_witness :
    ∃ t, (ScanRes.mk [1, 2, 4, 4, 4, 4, 5] 5 true 0).marks = 1 :: t ∧
      MarksTail (ScanRes.mk [1, 2, 4, 4, 4, 4, 5] 5 true 0).stop 1 t ∧
      (ScanRes.mk [1, 2, 4, 4, 4, 4, 5] 5 true 0).marks.getLast? =
        some (ScanRes.mk [1, 2, 4, 4, 4, 4, 5] 5 true 0).stop :=
  claim3_quoted_marks [([('\\' : Char), 'n'], Escape.basic)] [('"' : Char)] 10
    [('"' : Char)] [('a' : Char), '\\', 'n', 'b', '"'] 1
    (ScanRes.mk [1, 2, 4, 4, 4, 4, 5] 5 true 0) (by decide) rfl

/-! ## Comment scanning (`ilex/src/rt/emit2.rs`, lines 302-341)

After the DFA accepts a comment opener, `emit` scans the body with a
depth counter starting at 1: a nested opener (checked first, and only
when `can_nest`) increments it, a closer decrements it and ends the scan
when it reaches zero, any other code point is skipped.  At the end, a
missing closer is an `unclosed` diagnostic (reported at the opener's
span) unless the closer is `"\n"` (EOF is "just a funny newline"); a
`"\n"` closer that did match is cropped off the token; and a token of
the comment's own lexeme covering everything scanned is appended
(`add_token(best.lexeme, cursor - lexer.cursor())`). -/

structure CommentRes where
  cursor : Nat
  depth : Nat
  rest : List Char
deriving DecidableEq

/-- The comment body loop (emit2.rs lines 310-325), with fuel. -/
def commentScan (canNest : Bool) (opener close : List Char) :
    Nat → List Char → Nat → Nat → Option CommentRes
  | 0, _, _, _ => none
  | fuel + 1, rest, cursor, depth =>
      match rest with
      | [] => some ⟨cursor, depth, []⟩
      | c :: t =>
          if canNest && opener.isPrefixOf rest then
            commentScan canNest opener close fuel (rest.drop opener.length)
              (cursor + utf8Bytes opener) (depth + 1)
          else if close.isPrefixOf rest then
            if depth - 1 = 0 then
              some ⟨cursor + utf8Bytes close, 0, rest.drop close.length⟩
            else
              commentScan canNest opener close fuel (rest.drop close.length)
                (cursor + utf8Bytes close) (depth - 1)
          else commentScan canNest opener close fuel t (cursor + c.utf8Size) depth

structure CommentOut where
  unclosed : Bool
  token : Int × Nat
deriving DecidableEq

/-- The comment arm after the scan (emit2.rs lines 327-340): diagnose
`unclosed` when the closer is not `"\n"` and the depth never reached
zero; crop the final newline when a `"\n"` closer did close; append a
token of the comment's lexeme from the match start to the final cursor.
`start` is `lexer.cursor()` (the opener's start), `end0` the end of the
DFA match. -/
def commentEmit (canNest : Bool) (lexemeId : Int) (opener close : List Char)
    (fuel : Nat) (body : List Char) (start end0 : Nat) : Option CommentOut :=
  (commentScan canNest opener close fuel body end0 1).map (fun r =>
    { unclosed := decide (¬ close = [('\n' : Char)] ∧ ¬ r.depth = 0)
      token := (lexemeId,
        (if close = [('\n' : Char)] ∧ r.depth = 0 then r.cursor - 1 else r.cursor) - start) })

theorem eq_append_drop_of_isPrefixOf {l₁ l₂ : List Char}
    (h : l₁.isPrefixOf l₂ = true) : l₂ = l₁ ++ l₂.drop l₁.length := by
  obtain ⟨t, ht⟩ := List.isPrefixOf_iff_prefix.mp h
  subst ht
  simp

theorem commentScan_decomp (canNest : Bool) (opener close : List Char) :
    ∀ (fuel : Nat) (rest : List Char) (cursor depth : Nat) (r : CommentRes),
      commentScan canNest opener close fuel rest cursor depth = some r →
      0 < depth →
      ∃ mid, rest = mid ++ r.rest ∧ r.cursor = cursor + utf8Bytes mid ∧
        (r.depth = 0 → ∃ mid₀, mid = mid₀ ++ close) ∧
        (r.depth ≠ 0 → r.rest = []) := by
  intro fuel
  induction fuel with
  | zero => intro rest cursor depth r h hd; simp [commentScan] at h
  | succ fuel ih =>
      intro rest cursor depth r h hd
      cases rest with
      | nil =>
          rw [commentScan] at h
          simp only [Option.some_inj] at h
          subst h
          refine ⟨[], by simp, by simp, ?_, fun _ => rfl⟩
          intro h0
          dsimp only at h0
          omega
      | cons c t =>
          rw [commentScan] at h
          by_cases hn : (canNest && opener.isPrefixOf (c :: t)) = true
          · rw [if_pos hn] at h
            obtain ⟨mid, h1, h2, h3, h4⟩ := ih _ _ _ r h (by omega)
            have hp : opener.isPrefixOf (c :: t) = true := by
              cases canNest <;> simp_all
            refine ⟨opener ++ mid, ?_, ?_, ?_, h4⟩
            · rw [List.append_assoc, ← h1]
              exact eq_append_drop_of_isPrefixOf hp
            · rw [h2, utf8Bytes_append]; omega
            · intro h0
              obtain ⟨mid₀, hm⟩ := h3 h0
              exact ⟨opener ++ mid₀, by rw [hm, List.append_assoc]⟩
          · rw [if_neg hn] at h
            by_cases hc : close.isPrefixOf (c :: t) = true
            · rw [if_pos hc] at h
              by_cases hz : depth - 1 = 0
              · rw [if_pos hz] at h
                simp only [Option.some_inj] at h
                subst h
                refine ⟨close, eq_append_drop_of_isPrefixOf hc, by simp, ?_, ?_⟩
                · intro _; exact ⟨[], by simp⟩
                · intro h0; exact absurd rfl h0
              · rw [if_neg hz] at h
                obtain ⟨mid, h1, h2, h3, h4⟩ := ih _ _ _ r h (by omega)
                refine ⟨close ++ mid, ?_, ?_, ?_, h4⟩
                · rw [List.append_assoc, ← h1]
                  exact eq_append_drop_of_isPrefixOf hc
                · rw [h2, utf8Bytes_append]; omega
                · intro h0
                  obtain ⟨mid₀, hm⟩ := h3 h0
                  exact ⟨close ++ mid₀, by rw [hm, List.append_assoc]⟩
            · rw [if_neg hc] at h
              obtain ⟨mid, h1, h2, h3, h4⟩ := ih _ _ _ r h hd
              refine ⟨c :: mid, by simp [h1], ?_, ?_, h4⟩
              · rw [h2]; simp; omega
              · intro h0
                obtain ⟨mid₀, hm⟩ := h3 h0
                exact ⟨c :: mid₀, by rw [hm]; rfl⟩

/-- **C7.**  When a comment opener is matched, the body is scanned with a
depth counter starting at 1 (incrementing on a nested opener only when
`can_nest`, decrementing on each close); the appended token always
carries the comment's own lexeme; the scanned region is exactly the
consumed part of the body and, when the depth reaches zero, it ends with
the close delimiter; when the close delimiter is `"\n"` and the depth
reached zero, the final newline byte is excluded from the token's
extent; when the close delimiter is not `"\n"` and the depth never
reached zero, the scan ran to end of input and the `unclosed` diagnostic
is emitted — and in every case the token covers the scanned bytes. -/
theorem claim7_comment_scan (canNest : Bool) (lexemeId : Int)
    (opener close : List Char) (fuel : Nat) (body : List Char)
    (start end0 : Nat) (r : CommentRes)
    (h : commentScan canNest opener close fuel body end0 1 = some r)
    (hs : start ≤ end0) :
    ∃ out, commentEmit canNest lexemeId opener close fuel body start end0 = some out ∧
      out.token.1 = lexemeId ∧
      (∃ mid, body = mid ++ r.rest ∧ r.cursor = end0 + utf8Bytes mid) ∧
      (r.depth = 0 →
        ∃ mid₀, body = (mid₀ ++ close) ++ r.rest ∧
          r.cursor = end0 + utf8Bytes mid₀ + utf8Bytes close) ∧
      (close = [('\n' : Char)] → r.depth = 0 →
        out.token.2 = r.cursor - 1 - start ∧
        ∃ mid₀, body = (mid₀ ++ [('\n' : Char)]) ++ r.rest ∧
          r.cursor - 1 = end0 + utf8Bytes mid₀) ∧
      (out.unclosed = true ↔ (close ≠ [('\n' : Char)] ∧ r.depth ≠ 0)) ∧
      (r.depth ≠ 0 → r.rest = []) ∧
      (out.unclosed = true → out.token.2 = r.cursor - start) := by
  obtain ⟨mid, h1, h2, h3, h4⟩ :=
    commentScan_decomp canNest opener close fuel body end0 1 r h (by omega)
  refine ⟨_, by rw [commentEmit, h]; rfl, rfl, ⟨mid, h1, h2⟩, ?_, ?_, ?_, h4, ?_⟩
  · intro h0
    obtain ⟨mid₀, hm⟩ := h3 h0
    subst hm
    exact ⟨mid₀, h1, by rw [h2, utf8Bytes_append]; omega⟩
  · intro hnl h0
    obtain ⟨mid₀, hm⟩ := h3 h0
    subst hm
    subst hnl
    refine ⟨by dsimp only; rw [if_pos ⟨rfl, h0⟩], mid₀, h1, ?_⟩
    rw [h2, utf8Bytes_append]
    have h5 : utf8Bytes [('\n' : Char)] = 1 := rfl
    rw [h5]
    omega
  · dsimp only
    constructor
    · intro hu
      simpa using of_decide_eq_true hu
    · intro ⟨ha, hb⟩
      simp [decide_eq_true_eq, ha, hb]
  · intro hu
    have := of_decide_eq_true (by dsimp only at hu; exact hu)
    dsimp only
    rw [if_neg (by tauto)]

/-- Witness for `claim7_comment_scan`: a `/* ... */` block comment whose
body is `x*/y`, scanned from byte offset 2 (just past the opener). -/
theorem claim7_comment_scan_witness :
    ∃ out, commentEmit false 7 [('/' : Char), '*'] [('*' : Char), '/'] 10
        [('x' : Char), '*', '/', 'y'] 0 2 = some out ∧
      out.token.1 = 7 ∧
      (∃ mid, [('x' : Char), '*', '/', 'y'] = mid ++ (CommentRes.mk 5 0 ['y']).rest ∧
        (CommentRes.mk 5 0 ['y']).cursor = 2 + utf8Bytes mid) ∧
      ((CommentRes.mk 5 0 ['y']).depth = 0 →
        ∃ mid₀, [('x' : Char), '*', '/', 'y'] =
            (mid₀ ++ [('*' : Char), '/']) ++ (CommentRes.mk 5 0 ['y']).rest ∧
          (CommentRes.mk 5 0 ['y']).cursor =
            2 + utf8Bytes mid₀ + utf8Bytes [('*' : Char), '/']) ∧
      ([('*' : Char), '/'] = [('\n' : Char)] → (CommentRes.mk 5 0 ['y']).depth = 0 →
        out.token.2 = (CommentRes.mk 5 0 ['y']).cursor - 1 - 0 ∧
        ∃ mid₀, [('x' : Char), '*', '/', 'y'] =
            (mid₀ ++ [('\n' : Char)]) ++ (CommentRes.mk 5 0 ['y']).rest ∧
          (CommentRes.mk 5 0 ['y']).cursor - 1 = 2 + utf8Bytes mid₀) ∧
      (out.unclosed = true ↔
        ([('*' : Char), '/'] ≠ [('\n' : Char)] ∧ (CommentRes.mk 5 0 ['y']).depth ≠ 0)) ∧
      ((CommentRes.mk 5 0 ['y']).depth ≠ 0 → (CommentRes.mk 5 0 ['y']).rest = []) ∧
      (out.unclosed = true → out.token.2 = (CommentRes.mk 5 0 ['y']).cursor - 0) :=
  claim7_comment_scan false 7 [('/' : Char), '*'] [('*' : Char), '/'] 10
    [('x' : Char), '*', '/', 'y'] 0 2 (CommentRes.mk 5 0 ['y']) (by decide) (by omega)

/-! ## Pseudo-lexemes (`ilex/src/rt/mod.rs`, lines 140-143) -/

def rtWhitespace : Int := -1
def rtUnexpected : Int := -2
def rtPre : Int := -3
def rtSuf : Int := -4

/-! ## The digital (number) arm of `emit`
(`ilex/src/rt/emit2.rs`, lines 365-527)

The arm first appends the `PREFIX`/lexeme/`SUFFIX` tokens — the lexeme
token spanning the sign and the body — then replays the body with the
digit machine, diagnosing an "unexpected digit separator" at a separator
occurring at a block boundary that the rule's `corner_cases` do not
allow.  Spans below are byte offsets relative to the start of the
affix-stripped body (`range`); the mantissa chunk's out-of-range prefix
and sign spans (emit2.rs lines 374-394) are not tracked.  The second
validation pass over the recorded blocks (lines 537-608: `min_chunks`
and radix checks) issues only other kinds of diagnostics and is outside
this model's scope. -/

structure DigitsRule where
  radix : Nat
  signs : List (List Char × Int)
deriving DecidableEq

structure DigitalRule where
  separator : List Char
  point : List Char
  mant : DigitsRule
  exps : List (List Char × DigitsRule)
  /-- `corner_cases.prefix`. -/
  aroundPre : Bool
  /-- `corner_cases.around_point`. -/
  aroundPoint : Bool
  /-- `corner_cases.around_exp`. -/
  aroundExp : Bool
  /-- `corner_cases.suffix`. -/
  aroundSuf : Bool
deriving DecidableEq

/-- One `DigitBlocks` record (rt/mod.rs lines 107-113).  `whichExp` is
`none` for the mantissa (the code's `!0` sentinel) and the exponent
index otherwise. -/
structure DigitChunk where
  pre : Nat × Nat
  sign : Option (Int × (Nat × Nat))
  blocks : List (Nat × Nat)
  whichExp : Option Nat
deriving DecidableEq

structure DigSt where
  offset : Nat
  blockStart : Nat
  lastWasSep : Bool
  /-- `ptr::eq(digits, &rule.mant)`: no exponent prefix seen yet. -/
  inMant : Bool
  /-- Completed `DigitBlocks` chunks (all but the current one). -/
  done : List DigitChunk
  /-- The current (last) chunk, `chunks.last_mut()`. -/
  cur : DigitChunk
  /-- "unexpected digit separator" diagnostic spans, in emission order. -/
  diags : List (Nat × Nat)
deriving DecidableEq

/-- `for (i, (pre, exp)) in rule.exps.iter().enumerate()` with
`text.strip_prefix(pre)`: the first exponent whose prefix matches. -/
def findExp : List (List Char × DigitsRule) → List Char → Option (Nat × List Char × DigitsRule)
  | [], _ => none
  | (p, e) :: rest, text =>
      if p.isPrefixOf text then some (0, p, e)
      else (findExp rest text).map (fun r => (r.1 + 1, r.2))

/-- `signs.iter().filter(starts_with).max_by_key(len)` — the longest
matching sign, the last one on ties (Rust `max_by_key` keeps the last
maximum). -/
def pickSign (signs : List (List Char × Int)) (text : List Char) :
    Option (List Char × Int) :=
  signs.foldl
    (fun acc e =>
      if e.1.isPrefixOf text then
        match acc with
        | none => some e
        | some a => if a.1.length ≤ e.1.length then some e else acc
      else acc)
    none

/-- The `'digits` loop of the digital arm (emit2.rs lines 403-502), with
fuel.  At each step, in order: the separator literal (diagnosing a
separator at a block boundary that the corner cases forbid), the point
literal (closing the current block), an exponent prefix (closing the
block and chunk, optionally consuming a sign, and starting a new chunk),
and otherwise one code point of the current block. -/
def digitScan (rule : DigitalRule) : Nat → List Char → DigSt → Option DigSt
  | 0, _, _ => none
  | fuel + 1, text, st =>
      match text with
      | [] => some st
      | c :: rest =>
          if rule.separator ≠ [] ∧ rule.separator.isPrefixOf text then
            let sepB := utf8Bytes rule.separator
            let ds :=
              if st.blockStart = st.offset then
                if (if st.cur.blocks ≠ [] then rule.aroundPoint
                    else if st.inMant then rule.aroundPre else rule.aroundExp) then []
                else [(st.offset, st.offset + sepB)]
              else []
            digitScan rule fuel (text.drop rule.separator.length)
              { st with offset := st.offset + sepB, lastWasSep := true,
                        diags := st.diags ++ ds }
          else if rule.point.isPrefixOf text then
            let ds :=
              if st.lastWasSep ∧ ¬ rule.aroundPoint = true then
                [(st.offset, st.offset + utf8Bytes rule.separator)]
              else []
            digitScan rule fuel (text.drop rule.point.length)
              { st with offset := st.offset + utf8Bytes rule.point,
                        blockStart := st.offset + utf8Bytes rule.point,
                        lastWasSep := false,
                        cur := { st.cur with
                                  blocks := st.cur.blocks ++ [(st.blockStart, st.offset)] },
                        diags := st.diags ++ ds }
          else
            match findExp rule.exps text with
            | some (i, p, exp) =>
                let ds :=
                  if st.lastWasSep ∧ ¬ rule.aroundExp = true then
                    [(st.offset, st.offset + utf8Bytes rule.separator)]
                  else []
                let closed := { st.cur with
                                 blocks := st.cur.blocks ++ [(st.blockStart, st.offset)] }
                let preSpan := (st.offset, st.offset + utf8Bytes p)
                let off₁ := st.offset + utf8Bytes p
                let text₁ := text.drop p.length
                match pickSign exp.signs text₁ with
                | some (y, sg) =>
                    let off₂ := off₁ + utf8Bytes y
                    digitScan rule fuel (text₁.drop y.length)
                      { offset := off₂, blockStart := off₂, lastWasSep := false,
                        inMant := false, done := st.done ++ [closed],
                        cur := { pre := if p ≠ [] then preSpan else (0, 0),
                                 sign := some (sg, (off₁, off₂)), blocks := [],
                                 whichExp := some i },
                        diags := st.diags ++ ds }
                | none =>
                    digitScan rule fuel text₁
                      { offset := off₁, blockStart := off₁, lastWasSep := false,
                        inMant := false, done := st.done ++ [closed],
                        cur := { pre := if p ≠ [] then preSpan else (0, 0),
                                 sign := none, blocks := [], whichExp := some i },
                        diags := st.diags ++ ds }
            | none =>
                digitScan rule fuel rest { st with offset := st.offset + c.utf8Size }

structure DigitalOut where
  tokens : List (Int × Nat)
  diags : List (Nat × Nat)
  chunks : List DigitChunk
  finalOffset : Nat
deriving DecidableEq

/-- The digital arm end to end (emit2.rs lines 365-372 token emission,
the `'digits` scan, the trailing-separator check of lines 504-510, and
the final block push of lines 512-516). -/
def digitalEmit (rule : DigitalRule) (lexemeId : Int)
    (preLen signLen sufLen : Nat) (text : List Char) (fuel : Nat) :
    Option DigitalOut :=
  (digitScan rule fuel text
      { offset := 0, blockStart := 0, lastWasSep := false, inMant := true,
        done := [], cur := { pre := (0, 0), sign := none, blocks := [], whichExp := none },
        diags := [] }).map (fun st =>
    let trailing :=
      if st.lastWasSep ∧ ¬ rule.aroundSuf = true then
        [(st.offset - utf8Bytes rule.separator, utf8Bytes text)]
      else []
    { tokens := [(rtPre, preLen), (lexemeId, signLen + utf8Bytes text), (rtSuf, sufLen)]
      diags := st.diags ++ trailing
      chunks := st.done ++
        [{ st.cur with blocks := st.cur.blocks ++ [(st.blockStart, st.offset)] }]
      finalOffset := st.offset })

def digitChars : List Char := ['0', '1', '2', '3', '4', '5', '6', '7', '8', '9']

theorem digitChar_facts {c : Char} (h : c ∈ digitChars) :
    c.utf8Size = 1 ∧ c ≠ '_' ∧ c ≠ '.' := by
  fin_cases h <;> exact ⟨rfl, by decide, by decide⟩

theorem utf8Bytes_digits :
    ∀ (pre : List Char), (∀ c ∈ pre, c ∈ digitChars) → utf8Bytes pre = pre.length := by
  intro pre
  induction pre with
  | nil => intro _; rfl
  | cons c t ih =>
      intro h
      have hc := digitChar_facts (h c (List.mem_cons_self c t))
      simp [hc.1, ih (fun x hx => h x (List.mem_cons_of_mem c hx))]
      omega

theorem digitScan_run (rule : DigitalRule)
    (hsep : rule.separator.length = 1) (hpt : rule.point.length = 1)
    (hexp : rule.exps = []) :
    ∀ (fuel : Nat) (text : List Char) (st : DigSt), text.length < fuel →
      ∃ st', digitScan rule fuel text st = some st' ∧
        st'.offset = st.offset + utf8Bytes text ∧
        ∃ d, st'.diags = st.diags ++ d := by
  intro fuel
  induction fuel with
  | zero => intro text st h; omega
  | succ fuel ih =>
      intro text st h
      cases text with
      | nil =>
          refine ⟨st, ?_, by simp, [], by simp⟩
          rw [digitScan]
      | cons c rest =>
          rw [digitScan]
          obtain ⟨ssep, hssep⟩ := List.length_eq_one.mp hsep
          obtain ⟨spt, hspt⟩ := List.length_eq_one.mp hpt
          by_cases h1 : rule.separator ≠ [] ∧ rule.separator.isPrefixOf (c :: rest)
          · rw [if_pos h1]
            have hc : ssep = c := by
              have := h1.2
              rw [hssep] at this
              simp [List.isPrefixOf] at this
              exact this
            have hdrop : (c :: rest).drop rule.separator.length = rest := by
              rw [hssep]; rfl
            have hbytes : utf8Bytes rule.separator = c.utf8Size := by
              rw [hssep, hc]; simp
            rw [hdrop]
            obtain ⟨st', h2, h3, d, h4⟩ := ih rest _ (by simpa using Nat.lt_of_succ_lt_succ h)
            refine ⟨st', h2, ?_, ?_⟩
            · rw [h3]; dsimp only; rw [hbytes]; simp; omega
            · dsimp only at h4
              by_cases hbs : st.blockStart = st.offset
              · rw [if_pos hbs] at h4
                by_cases hok : (if st.cur.blocks ≠ [] then rule.aroundPoint
                    else if st.inMant then rule.aroundPre else rule.aroundExp) = true
                · rw [if_pos hok] at h4
                  exact ⟨d, by simpa using h4⟩
                · rw [if_neg hok] at h4
                  exact ⟨(st.offset, st.offset + utf8Bytes rule.separator) :: d, by
                    rw [h4]; simp⟩
              · rw [if_neg hbs] at h4
                exact ⟨d, by simpa using h4⟩
          · rw [if_neg h1]
            by_cases h2 : rule.point.isPrefixOf (c :: rest)
            · rw [if_pos h2]
              have hc : spt = c := by
                rw [hspt] at h2
                simp [List.isPrefixOf] at h2
                exact h2
              have hdrop : (c :: rest).drop rule.point.length = rest := by
                rw [hspt]; rfl
              have hbytes : utf8Bytes rule.point = c.utf8Size := by
                rw [hspt, hc]; simp
              rw [hdrop]
              obtain ⟨st', h3, h4, d, h5⟩ := ih rest _ (by simpa using Nat.lt_of_succ_lt_succ h)
              refine ⟨st', h3, ?_, ?_⟩
              · rw [h4]; dsimp only; rw [hbytes]; simp; omega
              · dsimp only at h5
                by_cases hls : st.lastWasSep ∧ ¬ rule.aroundPoint = true
                · rw [if_pos hls] at h5
                  exact ⟨(st.offset, st.offset + utf8Bytes rule.separator) :: d, by
                    rw [h5]; simp⟩
                · rw [if_neg hls] at h5
                  exact ⟨d, by simpa using h5⟩
            · rw [if_neg h2]
              rw [hexp]
              dsimp only [findExp]
              obtain ⟨st', h3, h4, d, h5⟩ := ih rest _ (by simpa using Nat.lt_of_succ_lt_succ h)
              refine ⟨st', h3, ?_, ⟨d, by simpa using h5⟩⟩
              rw [h4]; dsimp only; simp; omega

theorem digitScan_skip_digits (rule : DigitalRule)
    (hsep : rule.separator = [('_' : Char)]) (hpt : rule.point = [('.' : Char)])
    (hexp : rule.exps = []) :
    ∀ (pre : List Char), (∀ c ∈ pre, c ∈ digitChars) →
      ∀ (f : Nat) (text : List Char) (st : DigSt),
        digitScan rule (pre.length + f) (pre ++ text) st =
          digitScan rule f text { st with offset := st.offset + pre.length } := by
  intro pre
  induction pre with
  | nil =>
      intro _ f text st
      simp
  | cons c t ih =>
      intro h f text st
      have hc := digitChar_facts (h c (List.mem_cons_self c t))
      have hlen : (c :: t).length + f = (t.length + f) + 1 := by simp; omega
      rw [hlen]
      show digitScan rule ((t.length + f) + 1) (c :: (t ++ text)) st = _
      rw [digitScan]
      have h1 : ¬ (rule.separator ≠ [] ∧ rule.separator.isPrefixOf (c :: (t ++ text))) := by
        rw [hsep]
        rintro ⟨-, hp⟩
        simp [List.isPrefixOf] at hp
        exact hc.2.1 hp.symm
      have h2 : ¬ rule.point.isPrefixOf (c :: (t ++ text)) = true := by
        rw [hpt]
        intro hp
        simp [List.isPrefixOf] at hp
        exact hc.2.2 hp.symm
      rw [if_neg h1, if_neg h2, hexp]
      dsimp only [findExp]
      rw [ih (fun x hx => h x (List.mem_cons_of_mem c hx)) f text]
      have harith : st.offset + c.utf8Size + t.length = st.offset + (c :: t).length := by
        rw [hc.1]; simp; omega
      rw [harith]

/-- **C8.**  For a digital token whose body is `pre ++ "._" ++ post`
(`pre` made of decimal digits) under a rule with separator `_`, point
`.`, no exponents and `corner_cases.around_point = false`, the digital
arm emits an "unexpected digit separator" diagnostic whose span is
exactly the separator occurrence just after the point, while the digital
token itself is still emitted (together with its `PREFIX`/`SUFFIX`
tokens) and the scan still consumes the whole body, so lexing continues
past the token. -/
theorem claim8_sep_after_point (mant : DigitsRule) (ccP ccE ccS : Bool)
    (lexemeId : Int) (preLen signLen sufLen : Nat) (pre post : List Char)
    (hpre : ∀ c ∈ pre, c ∈ digitChars) :
    ∃ out,
      digitalEmit ⟨[('_' : Char)], [('.' : Char)], mant, [], ccP, false, ccE, ccS⟩
          lexemeId preLen signLen sufLen (pre ++ ('.' :: '_' :: post))
          ((pre ++ ('.' :: '_' :: post)).length + 1) = some out ∧
      (pre.length + 1, pre.length + 2) ∈ out.diags ∧
      (lexemeId, signLen + utf8Bytes (pre ++ ('.' :: '_' :: post))) ∈ out.tokens ∧
      out.finalOffset = utf8Bytes (pre ++ ('.' :: '_' :: post)) := by
  set rule : DigitalRule :=
    ⟨[('_' : Char)], [('.' : Char)], mant, [], ccP, false, ccE, ccS⟩ with hrule
  set text := pre ++ ('.' :: '_' :: post) with htext
  have hbpre : utf8Bytes pre = pre.length := utf8Bytes_digits pre hpre
  have hbtext : utf8Bytes text = pre.length + 2 + utf8Bytes post := by
    rw [htext, utf8Bytes_append, hbpre]
    have e1 : ('.' : Char).utf8Size = 1 := rfl
    have e2 : ('_' : Char).utf8Size = 1 := rfl
    simp only [utf8Bytes_cons, e1, e2]
    omega
  have hflen : text.length + 1 = pre.length + (post.length + 3) := by
    rw [htext]; simp; omega
  set st₀ : DigSt :=
    { offset := 0, blockStart := 0, lastWasSep := false, inMant := true,
      done := [], cur := { pre := (0, 0), sign := none, blocks := [], whichExp := none },
      diags := [] } with hst₀
  have hskip := digitScan_skip_digits rule rfl rfl rfl pre hpre (post.length + 3)
    ('.' :: '_' :: post) st₀
  -- one step: the point
  have hstep1 : digitScan rule (post.length + 3) ('.' :: '_' :: post)
      { st₀ with offset := st₀.offset + pre.length } =
      digitScan rule (post.length + 2) ('_' :: post)
        { offset := pre.length + 1, blockStart := pre.length + 1, lastWasSep := false,
          inMant := true, done := [],
          cur := { pre := (0, 0), sign := none, blocks := [(0, pre.length)], whichExp := none },
          diags := [] } := by
    show digitScan rule ((post.length + 2) + 1) ('.' :: ('_' :: post)) _ = _
    rw [digitScan]
    have h1 : ¬ (rule.separator ≠ [] ∧ rule.separator.isPrefixOf ('.' :: '_' :: post)) := by
      rintro ⟨-, hp⟩
      simp [hrule, List.isPrefixOf] at hp
    have h2 : rule.point.isPrefixOf ('.' :: '_' :: post) = true := by
      simp [hrule, List.isPrefixOf]
    rw [if_neg h1, if_pos h2]
    have e1 : ('.' : Char).utf8Size = 1 := rfl
    simp only [hrule, hst₀]
    norm_num [utf8Bytes_cons, utf8Bytes_nil, e1]
  have hstep2 : digitScan rule (post.length + 2) ('_' :: post)
      { offset := pre.length + 1, blockStart := pre.length + 1, lastWasSep := false,
        inMant := true, done := [],
        cur := { pre := (0, 0), sign := none, blocks := [(0, pre.length)], whichExp := none },
        diags := [] } =
      digitScan rule (post.length + 1) post
        { offset := pre.length + 2, blockStart := pre.length + 1, lastWasSep := true,
          inMant := true, done := [],
          cur := { pre := (0, 0), sign := none, blocks := [(0, pre.length)], whichExp := none },
          diags := [(pre.length + 1, pre.length + 2)] } := by
    show digitScan rule ((post.length + 1) + 1) ('_' :: post) _ = _
    rw [digitScan]
    have h1 : (rule.separator ≠ [] ∧ rule.separator.isPrefixOf ('_' :: post)) := by
      constructor
      · simp [hrule]
      · simp [hrule, List.isPrefixOf]
    rw [if_pos h1]
    dsimp only
    rw [if_pos rfl]
    rw [if_pos (show ([((0 : Nat), pre.length)] : List (Nat × Nat)) ≠ [] by simp)]
    rw [if_neg (show ¬ rule.aroundPoint = true by simp [hrule])]
    have e2 : ('_' : Char).utf8Size = 1 := rfl
    simp only [hrule]
    norm_num [utf8Bytes_cons, utf8Bytes_nil, e2]
  obtain ⟨st₄, hrun, hoff, d, hdiags⟩ :=
    digitScan_run rule rfl rfl rfl (post.length + 1) post
      { offset := pre.length + 2, blockStart := pre.length + 1, lastWasSep := true,
        inMant := true, done := [],
        cur := { pre := (0, 0), sign := none, blocks := [(0, pre.length)], whichExp := none },
        diags := [(pre.length + 1, pre.length + 2)] }
      (by omega)
  have hscan : digitScan rule (text.length + 1) text st₀ = some st₄ := by
    rw [hflen, htext, hskip, hstep1, hstep2, hrun]
  refine ⟨_, by rw [digitalEmit, hscan]; rfl, ?_, ?_, ?_⟩
  · dsimp only
    rw [hdiags]
    simp
  · dsimp only
    simp
  · dsimp only
    dsimp only at hoff
    rw [hoff, hbtext]

/-- Witness for `claim8_sep_after_point`: the spec's own example `1._5`. -/
theorem claim8_sep_after_point_witness :
    ∃ out,
      digitalEmit ⟨[('_' : Char)], [('.' : Char)], ⟨10, []⟩, [], true, false, true, true⟩
          3 0 0 0 ([('1' : Char)] ++ ('.' :: '_' :: [('5' : Char)]))
          (([('1' : Char)] ++ ('.' :: '_' :: [('5' : Char)])).length + 1) = some out ∧
      ([('1' : Char)].length + 1, [('1' : Char)].length + 2) ∈ out.diags ∧
      ((3 : Int), 0 + utf8Bytes ([('1' : Char)] ++ ('.' :: '_' :: [('5' : Char)]))) ∈ out.tokens ∧
      out.finalOffset = utf8Bytes ([('1' : Char)] ++ ('.' :: '_' :: [('5' : Char)])) :=
  claim8_sep_after_point ⟨10, []⟩ true true true 3 0 0 0 [('1' : Char)] [('5' : Char)]
    (by decide)

/-! ## The dispatch of `emit` after candidate selection
(`ilex/src/rt/emit2.rs`, lines 242-761)

An action-level embedding of the branch on `best.is_close` and, on the
opening side, the per-rule token emission.  The scans performed inside
the comment/digital/quoted arms are modelled in detail above; here their
resulting lengths appear as data carried by the rule kind, and the
diagnostics internal to those arms are likewise out of scope of this
action model.  The `is_close` branch (lines 243-256) — the subject of
C5 — is embedded in full: the `unopened` diagnostic, one `UNEXPECTED`
token of `len + extra` bytes, no token of the rule's own lexeme, and no
push onto the closer stack. -/

inductive DiagK where
  | unopened
  | cancelUnexpected
deriving DecidableEq

inductive Action where
  | diag (k : DiagK)
  | token (lexeme : Int) (len : Nat)
  | pushCloser (mirror : List Char)
  | setCancel
  | bug
deriving DecidableEq

inductive RuleK where
  | keyword
  | lineEnd (isNl : Bool)
  | bracket
  | comment (scanLen : Nat)
  | ident (preLen bodyLen sufLen : Nat)
  | digital (preLen signLen bodyLen sufLen : Nat)
  | quoted (preLen bodyLen sufLen : Nat)
deriving DecidableEq

/-- Is the rule a comment rule (the line-end cancel check of lines
262-275 skips comments)? -/
def RuleK.isComment : RuleK → Bool
  | .comment _ => true
  | _ => false

/-- The top-level dispatch of `emit` after `best` is chosen. -/
def emitTop (best : Lexeme2) (mirror : Option (List Char)) (rk : RuleK)
    (rangeLen len extra : Nat) (cancelPending : Bool) : List Action :=
  if best.is_close then
    match mirror with
    | none => [.bug]
    | some _ => [.diag .unopened, .token rtUnexpected (len + extra)]
  else
    (if ¬ rk.isComment ∧ cancelPending then [.diag .cancelUnexpected] else []) ++
    match rk with
    | .keyword => [.token best.lexeme rangeLen]
    | .lineEnd true => [.token best.lexeme rangeLen]
    | .lineEnd false => [.token rtWhitespace rangeLen, .setCancel]
    | .bracket =>
        match mirror with
        | none => [.bug]
        | some m => [.pushCloser m, .token best.lexeme rangeLen]
    | .comment scanLen => [.token best.lexeme scanLen]
    | .ident preLen bodyLen sufLen =>
        [.token rtPre preLen, .token best.lexeme bodyLen, .token rtSuf sufLen]
    | .digital preLen signLen bodyLen sufLen =>
        [.token rtPre preLen, .token best.lexeme (signLen + bodyLen), .token rtSuf sufLen]
    | .quoted preLen bodyLen sufLen =>
        [.token rtPre preLen, .token best.lexeme bodyLen, .token rtSuf sufLen]

/-- **C5.**  When the chosen best candidate has `is_close = true` (so
the closer did not match the closer stack, which is checked before
`emit` runs), the emitter issues exactly an `unopened` diagnostic and
one `UNEXPECTED` token covering `len + extra` bytes: it emits no token
of the bracket's own (nonnegative) lexeme and pushes nothing onto the
closer stack. -/
theorem claim5_unopened (best : Lexeme2) (m : List Char) (rk : RuleK)
    (rangeLen len extra : Nat) (cp : Bool)
    (hclose : best.is_close = true) (hlex : 0 ≤ best.lexeme) :
    emitTop best (some m) rk rangeLen len extra cp =
      [Action.diag DiagK.unopened, Action.token rtUnexpected (len + extra)] ∧
    (∀ s, Action.pushCloser s ∉ emitTop best (some m) rk rangeLen len extra cp) ∧
    (∀ l n, Action.token l n ∈ emitTop best (some m) rk rangeLen len extra cp →
      l ≠ best.lexeme ∧ l = rtUnexpected ∧ n = len + extra) := by
  have he : emitTop best (some m) rk rangeLen len extra cp =
      [Action.diag DiagK.unopened, Action.token rtUnexpected (len + extra)] := by
    rw [emitTop.eq_def, if_pos hclose]
  refine ⟨he, ?_, ?_⟩
  · intro s hs
    rw [he] at hs
    simp at hs
  · intro l n hln
    rw [he] at hln
    simp only [List.mem_cons, List.not_mem_nil, or_false] at hln
    rcases hln with h | h
    · exact absurd h (by simp)
    · have h1 : l = rtUnexpected := by
        have := congrArg (fun a => match a with | Action.token l _ => l | _ => 0) h
        simpa using this
      have h2 : n = len + extra := by
        have := congrArg (fun a => match a with | Action.token _ n => n | _ => 0) h
        simpa using this
      refine ⟨?_, h1, h2⟩
      rw [h1]
      intro hbad
      rw [← hbad] at hlex
      simp [rtUnexpected] at hlex
  
/-- Witness for `claim5_unopened`: a close-side candidate for lexeme 2
with a 1-byte match and 1 byte of overparse. -/
theorem claim5_unopened_witness :
    emitTop ⟨2, true⟩ (some [('|' : Char)]) RuleK.bracket 1 1 1 false =
      [Action.diag DiagK.unopened, Action.token rtUnexpected (1 + 1)] ∧
    (∀ s, Action.pushCloser s ∉ emitTop ⟨2, true⟩ (some [('|' : Char)]) RuleK.bracket 1 1 1 false) ∧
    (∀ l n, Action.token l n ∈ emitTop ⟨2, true⟩ (some [('|' : Char)]) RuleK.bracket 1 1 1 false →
      l ≠ (⟨2, true⟩ : Lexeme2).lexeme ∧ l = rtUnexpected ∧ n = 1 + 1) :=
  claim5_unopened ⟨2, true⟩ [('|' : Char)] RuleK.bracket 1 1 1 false rfl (by decide)

/-! ## The driver loop (`ilex/src/rt/mod.rs`, lines 23-66)

`lex` loops: record `start`; skip whitespace (flushing a pending
unexpected-run diagnostic, whose span ends at the pre-skip cursor); stop
at end of input (dropping any still-pending diagnostic); try to pop a
closer and then to emit — if either advanced the cursor, flush the
pending diagnostic and continue; otherwise consume one code point as an
`UNEXPECTED` token, recording the run start in the one-element
coalescer if it is empty. -/

structure SkipRes where
  rest : List Char
  cursor : Nat
  skipped : Bool
deriving DecidableEq

/-- Modelled from the spec: `Lexer::skip_whitespace` lives in
`ilex/src/rt/lexer.rs`, which is not among the sources at hand.  Per the
spec's driver loop step "(1) skip whitespace" and the call site
`if lexer.skip_whitespace() { diagnose_unexpected(start) }`, it advances
the cursor past the maximal run of whitespace code points and reports
whether it advanced at all. -/
def skipWs (ws : Char → Bool) : List Char → Nat → SkipRes
  | [], cur => ⟨[], cur, false⟩
  | c :: t, cur =>
      if ws c then
        let s := skipWs ws t (cur + c.utf8Size)
        ⟨s.rest, s.cursor, true⟩
      else ⟨c :: t, cur, false⟩

theorem skipWs_length_le (ws : Char → Bool) :
    ∀ (l : List Char) (cur : Nat), (skipWs ws l cur).rest.length ≤ l.length := by
  intro l
  induction l with
  | nil => intro cur; simp [skipWs]
  | cons c t ih =>
      intro cur
      by_cases h : ws c
      · rw [skipWs, if_pos h]
        exact le_trans (ih _) (by simp)
      · rw [skipWs, if_neg h]

theorem skipWs_head (ws : Char → Bool) :
    ∀ (l : List Char) (cur : Nat) (c : Char) (t : List Char),
      (skipWs ws l cur).rest = c :: t → ws c = false := by
  intro l
  induction l with
  | nil => intro cur c t h; simp [skipWs] at h
  | cons a u ih =>
      intro cur c t h
      by_cases ha : ws a
      · rw [skipWs, if_pos ha] at h
        exact ih _ c t h
      · rw [skipWs, if_neg ha] at h
        dsimp only at h
        injection h with h1 h2
        subst h1
        simpa using ha

theorem skipWs_not_ws (ws : Char → Bool) (c : Char) (t : List Char) (cur : Nat)
    (h : ws c = false) : skipWs ws (c :: t) cur = ⟨c :: t, cur, false⟩ := by
  rw [skipWs, if_neg (by simp [h])]

structure C4Out where
  /-- The `unexpected_token` diagnostic spans, in emission order. -/
  diags : List (Nat × Nat)
  /-- The `UNEXPECTED` tokens appended by the driver itself. -/
  toks : List (Int × Nat)
deriving DecidableEq

/-- The driver loop of `lex` (rt/mod.rs lines 38-63), with fuel (the
real loop terminates because every iteration either advances the cursor
or consumes one code point; `none` means the fuel ran out).  `adv`
abstracts the combined cursor effect of `pop_closer` followed by
`emit2::emit`: the number of code points consumed at the given remaining
text, 0 when both leave the cursor in place.  Only the coalescer's
`unexpected_token` diagnostics and the loop's own `UNEXPECTED` tokens
are tracked; tokens and diagnostics produced inside `skip_whitespace`,
`pop_closer` and `emit` are modelled elsewhere. -/
def lexLoop (ws : Char → Bool) (adv : List Char → Nat) :
    Nat → List Char → Nat → Option Nat → Option C4Out
  | 0, _, _, _ => none
  | fuel + 1, rest, cursor, pending =>
      let s := skipWs ws rest cursor
      let d0 : List (Nat × Nat) :=
        if s.skipped then
          match pending with
          | some u => [(u, cursor)]
          | none => []
        else []
      let p0 : Option Nat := if s.skipped then none else pending
      match s.rest with
      | [] => some ⟨d0, []⟩
      | c :: t =>
          if adv (c :: t) > 0 then
            (lexLoop ws adv fuel ((c :: t).drop (adv (c :: t)))
                (s.cursor + utf8Bytes ((c :: t).take (adv (c :: t)))) none).map
              (fun out => ⟨d0 ++
                ((match p0 with | some u => [(u, s.cursor)] | none => []) ++ out.diags),
                out.toks⟩)
          else
            (lexLoop ws adv fuel t (s.cursor + c.utf8Size)
                (match p0 with | some u => some u | none => some s.cursor)).map
              (fun out => ⟨d0 ++ out.diags,
                (rtUnexpected, c.utf8Size) :: out.toks⟩)

/-- A position is stuck when its head code point is not whitespace and
neither closer popping nor emission consumes input there.  The maximal
stuck run starting at the given text, with fuel (`none` means the fuel
ran out). -/
def stuckRun (ws : Char → Bool) (adv : List Char → Nat) : Nat → List Char → Option (List Char)
  | _, [] => some []
  | 0, _ :: _ => none
  | fuel + 1, c :: t =>
      if ws c then some []
      else if adv (c :: t) > 0 then some []
      else (stuckRun ws adv fuel t).map (fun r => c :: r)

/-- `run` is a run of stuck positions when followed by `t₀`: each of its
code points is non-whitespace and `adv` is zero at its suffix. -/
inductive StuckRun (ws : Char → Bool) (adv : List Char → Nat) (t₀ : List Char) :
    List Char → Prop
  | nil : StuckRun ws adv t₀ []
  | cons (c : Char) (run : List Char) : ws c = false → adv (c :: (run ++ t₀)) = 0 →
      StuckRun ws adv t₀ run → StuckRun ws adv t₀ (c :: run)

theorem stuckRun_spec (ws : Char → Bool) (adv : List Char → Nat) :
    ∀ (l : List Char) (fuel : Nat), l.length ≤ fuel →
      ∃ run rest₂, stuckRun ws adv fuel l = some run ∧ l = run ++ rest₂ ∧
        StuckRun ws adv rest₂ run ∧
        (rest₂ = [] ∨ ∃ d t₁, rest₂ = d :: t₁ ∧ (ws d = true ∨ adv (d :: t₁) > 0)) := by
  intro l
  induction l with
  | nil =>
      intro fuel h
      refine ⟨[], [], ?_, rfl, StuckRun.nil, Or.inl rfl⟩
      cases fuel <;> rfl
  | cons c t ih =>
      intro fuel h
      obtain ⟨fuel, rfl⟩ : ∃ f, fuel = f + 1 := ⟨fuel - 1, by simp at h; omega⟩
      by_cases hws : ws c
      · refine ⟨[], c :: t, ?_, rfl, StuckRun.nil, Or.inr ⟨c, t, rfl, Or.inl hws⟩⟩
        rw [stuckRun, if_pos hws]
      · by_cases hadv : adv (c :: t) > 0
        · refine ⟨[], c :: t, ?_, rfl, StuckRun.nil, Or.inr ⟨c, t, rfl, Or.inr hadv⟩⟩
          rw [stuckRun, if_neg hws, if_pos hadv]
        · obtain ⟨run, rest₂, h1, h2, h3, h4⟩ := ih fuel (by simp at h; omega)
          refine ⟨c :: run, rest₂, ?_, by simp [h2], ?_, h4⟩
          · rw [stuckRun, if_neg hws, if_neg hadv, h1]
            rfl
          · exact StuckRun.cons c run (by simpa using hws)
              (by rw [← h2]; omega) h3

/-- The segmentation the (amended) claim describes: skip whitespace;
where the spec consumes input (`adv > 0`), no unexpected run is in
progress; at a stuck position, the maximal stuck run follows — each of
its code points becomes its own `UNEXPECTED` token, and the run
contributes exactly one diagnostic spanning it when it is followed by
further input, none when it reaches the end of the file. -/
def coalesce (ws : Char → Bool) (adv : List Char → Nat) : Nat → List Char → Nat → Option C4Out
  | 0, _, _ => none
  | fuel + 1, rest, cursor =>
      let s := skipWs ws rest cursor
      match s.rest with
      | [] => some ⟨[], []⟩
      | c :: t =>
          if adv (c :: t) > 0 then
            coalesce ws adv fuel ((c :: t).drop (adv (c :: t)))
              (s.cursor + utf8Bytes ((c :: t).take (adv (c :: t))))
          else
            match stuckRun ws adv fuel (c :: t) with
            | none => none
            | some run =>
                let rest₂ := (c :: t).drop run.length
                let e := s.cursor + utf8Bytes run
                let toks := run.map (fun x => ((rtUnexpected : Int), x.utf8Size))
                match rest₂ with
                | [] => some ⟨[], toks⟩
                | _ :: _ =>
                    (coalesce ws adv fuel rest₂ e).map
                      (fun out => ⟨(s.cursor, e) :: out.diags, toks ++ out.toks⟩)

theorem lexLoop_flush (ws : Char → Bool) (adv : List Char → Nat) :
    ∀ (n : Nat) (rest : List Char) (cursor u : Nat),
      ((skipWs ws rest cursor).skipped = true ∨
        (∃ c t, (skipWs ws rest cursor).rest = c :: t ∧ adv (c :: t) > 0)) →
      lexLoop ws adv n rest cursor (some u) =
        (lexLoop ws adv n rest cursor none).map
          (fun o => ⟨(u, cursor) :: o.diags, o.toks⟩) := by
  intro n rest cursor u h
  cases n with
  | zero => rfl
  | succ n =>
      rw [lexLoop, lexLoop]
      by_cases hsk : (skipWs ws rest cursor).skipped = true
      · simp only [hsk, if_true]
        cases hr : (skipWs ws rest cursor).rest with
        | nil => simp [hr]
        | cons c t =>
            simp only [hr]
            by_cases hk : adv (c :: t) > 0
            · rw [if_pos hk, if_pos hk]
              cases lexLoop ws adv n ((c :: t).drop (adv (c :: t)))
                  ((skipWs ws rest cursor).cursor + utf8Bytes ((c :: t).take (adv (c :: t)))) none with
              | none => rfl
              | some o => rfl
            · rw [if_neg hk, if_neg hk]
              cases lexLoop ws adv n t ((skipWs ws rest cursor).cursor + c.utf8Size)
                  (some (skipWs ws rest cursor).cursor) with
              | none => rfl
              | some o => rfl
      · rcases h with h | ⟨c, t, hr, hk⟩
        · exact absurd h hsk
        · have hcur : (skipWs ws rest cursor).cursor = cursor := by
            cases rest with
            | nil => rfl
            | cons a u' =>
                by_cases ha : ws a
                · exfalso
                  apply hsk
                  rw [skipWs, if_pos ha]
                · rw [skipWs, if_neg ha]
          simp only [eq_false_of_ne_true hsk, if_false, hr]
          rw [if_pos hk, if_pos hk, hcur]
          cases lexLoop ws adv n ((c :: t).drop (adv (c :: t)))
              (cursor + utf8Bytes ((c :: t).take (adv (c :: t)))) none with
          | none => rfl
          | some o => rfl

theorem lexLoop_run (ws : Char → Bool) (adv : List Char → Nat) :
    ∀ (run t₀ : List Char), StuckRun ws adv t₀ run →
    (t₀ = [] ∨ ∃ d t₁, t₀ = d :: t₁ ∧ (ws d = true ∨ adv (d :: t₁) > 0)) →
    ∀ (n cursor u : Nat), run.length + t₀.length < n →
      lexLoop ws adv n (run ++ t₀) cursor (some u) =
        (lexLoop ws adv (n - run.length) t₀ (cursor + utf8Bytes run) none).map
          (fun o => ⟨(if t₀.isEmpty then [] else [(u, cursor + utf8Bytes run)]) ++ o.diags,
            run.map (fun c => ((rtUnexpected : Int), c.utf8Size)) ++ o.toks⟩) := by
  intro run t₀ hrun
  induction hrun with
  | nil =>
      intro hb n cursor u hlt
      simp only [List.nil_append, List.length_nil, Nat.sub_zero, utf8Bytes_nil,
        Nat.add_zero, List.map_nil]
      rcases hb with hb | ⟨d, t₁, hb, hd⟩
      · subst hb
        obtain ⟨n', rfl⟩ : ∃ n', n = n' + 1 := ⟨n - 1, by omega⟩
        rw [lexLoop, lexLoop]
        simp [skipWs]
      · subst hb
        have hflush : (skipWs ws (d :: t₁) cursor).skipped = true ∨
            (∃ c t, (skipWs ws (d :: t₁) cursor).rest = c :: t ∧ adv (c :: t) > 0) := by
          rcases hd with hd | hd
          · exact Or.inl (by rw [skipWs, if_pos hd])
          · by_cases hwd : ws d
            · exact Or.inl (by rw [skipWs, if_pos hwd])
            · exact Or.inr ⟨d, t₁, by rw [skipWs_not_ws ws d t₁ cursor (by simpa using hwd)], hd⟩
        rw [lexLoop_flush ws adv n _ cursor u hflush]
        cases lexLoop ws adv n (d :: t₁) cursor none with
        | none => rfl
        | some o => simp
  | cons c run' hwsc hadvc hrun' ih =>
      intro hb n cursor u hlt
      obtain ⟨n', rfl⟩ : ∃ n', n = n' + 1 := ⟨n - 1, by omega⟩
      rw [lexLoop]
      rw [List.cons_append]
      simp only [skipWs_not_ws ws c (run' ++ t₀) cursor hwsc]
      rw [if_neg (by omega : ¬ adv (c :: (run' ++ t₀)) > 0)]
      simp only [eq_false Bool.false_ne_true, if_false, List.nil_append]
      have hlt' : run'.length + t₀.length < n' := by
        simp only [List.length_cons] at hlt
        omega
      rw [ih hb n' (cursor + c.utf8Size) u hlt']
      have hfuel : n' + 1 - (c :: run').length = n' - run'.length := by
        simp only [List.length_cons]
        omega
      rw [hfuel]
      have harith : cursor + c.utf8Size + utf8Bytes run' =
          cursor + utf8Bytes (c :: run') := by
        simp only [utf8Bytes_cons]
        omega
      rw [harith]
      cases lexLoop ws adv (n' - run'.length) t₀
          (cursor + utf8Bytes (c :: run')) none with
      | none => rfl
      | some o => simp

theorem coalesce_total (ws : Char → Bool) (adv : List Char → Nat) :
    ∀ (m : Nat) (text : List Char) (cursor : Nat), text.length < m →
      ∃ out, coalesce ws adv m text cursor = some out := by
  intro m
  induction m with
  | zero => intro text cursor h; omega
  | succ m ih =>
      intro text cursor h
      rw [coalesce]
      cases hr : (skipWs ws text cursor).rest with
      | nil => exact ⟨_, rfl⟩
      | cons c t =>
          simp only
          have hws : ws c = false := skipWs_head ws text cursor c t hr
          have hlen : t.length + 1 ≤ text.length := by
            have := skipWs_length_le ws text cursor
            rw [hr] at this
            simpa using this
          by_cases hadv : adv (c :: t) > 0
          · rw [if_pos hadv]
            apply ih
            have : ((c :: t).drop (adv (c :: t))).length ≤ t.length := by
              rw [List.length_drop]
              simp only [List.length_cons]
              omega
            omega
          · rw [if_neg hadv]
            obtain ⟨run, rest₂, h1, h2, h3, h4⟩ :=
              stuckRun_spec ws adv (c :: t) m (by simp; omega)
            rw [h1]
            dsimp only
            have hrl : run.length + rest₂.length = t.length + 1 := by
              have := congrArg List.length h2
              simp [List.length_append] at this
              omega
            have hdrop : (c :: t).drop run.length = rest₂ := by
              rw [h2, List.drop_append_of_le_length (le_refl _)]
              simp
            rw [hdrop]
            have hrun0 : run ≠ [] := by
              intro habs
              subst habs
              simp only [List.nil_append] at h2
              rcases h4 with h4 | ⟨d, t₁, h4, h5⟩
              · rw [h4] at h2; exact List.noConfusion h2
              · rw [h4] at h2
                injection h2 with hc ht
                subst hc
                subst ht
                rcases h5 with h5 | h5
                · rw [hws] at h5; exact Bool.noConfusion h5
                · omega
            have hpos : 1 ≤ run.length := by
              cases run with
              | nil => exact absurd rfl hrun0
              | cons a b => simp
            cases rest₂ with
            | nil => exact ⟨_, rfl⟩
            | cons d t₁ =>
                obtain ⟨out, hout⟩ := ih (d :: t₁) _ (by simp at hrl ⊢; omega)
                rw [hout]
                exact ⟨_, rfl⟩

theorem lexLoop_eq_coalesce (ws : Char → Bool) (adv : List Char → Nat) :
    ∀ (k : Nat) (text : List Char), text.length ≤ k →
      ∀ (n m cursor : Nat), text.length < n → text.length < m →
        lexLoop ws adv n text cursor none = coalesce ws adv m text cursor := by
  intro k
  induction k with
  | zero =>
      intro text htk n m cursor hn hm
      have : text = [] := List.length_eq_zero.mp (by omega)
      subst this
      obtain ⟨n', rfl⟩ : ∃ n', n = n' + 1 := ⟨n - 1, by omega⟩
      obtain ⟨m', rfl⟩ : ∃ m', m = m' + 1 := ⟨m - 1, by omega⟩
      rw [lexLoop, coalesce]
      simp [skipWs]
  | succ k ih =>
      intro text htk n m cursor hn hm
      obtain ⟨n', rfl⟩ : ∃ n', n = n' + 1 := ⟨n - 1, by omega⟩
      obtain ⟨m', rfl⟩ : ∃ m', m = m' + 1 := ⟨m - 1, by omega⟩
      rw [lexLoop, coalesce]
      cases hr : (skipWs ws text cursor).rest with
      | nil => simp
      | cons c t =>
          simp only [hr, ite_self]
          have hws : ws c = false := skipWs_head ws text cursor c t hr
          have hlen : t.length + 1 ≤ text.length := by
            have := skipWs_length_le ws text cursor
            rw [hr] at this
            simpa using this
          by_cases hadv : adv (c :: t) > 0
          · rw [if_pos hadv, if_pos hadv]
            have hdl : ((c :: t).drop (adv (c :: t))).length ≤ t.length := by
              rw [List.length_drop]
              simp only [List.length_cons]
              omega
            rw [ih ((c :: t).drop (adv (c :: t))) (by omega) n' m' _ (by omega) (by omega)]
            cases coalesce ws adv m' ((c :: t).drop (adv (c :: t)))
                ((skipWs ws text cursor).cursor + utf8Bytes ((c :: t).take (adv (c :: t)))) with
            | none => rfl
            | some o => simp
          · rw [if_neg hadv, if_neg hadv]
            obtain ⟨run, rest₂, h1, h2, h3, h4⟩ :=
              stuckRun_spec ws adv (c :: t) m' (by simp; omega)
            rw [h1]
            dsimp only
            have hrl : run.length + rest₂.length = t.length + 1 := by
              have := congrArg List.length h2
              simp [List.length_append] at this
              omega
            have hdrop : (c :: t).drop run.length = rest₂ := by
              rw [h2, List.drop_append_of_le_length (le_refl _)]
              simp
            rw [hdrop]
            have hrun0 : run ≠ [] := by
              intro habs
              subst habs
              simp only [List.nil_append] at h2
              rcases h4 with h4 | ⟨d, t₁, h4, h5⟩
              · rw [h4] at h2; exact List.noConfusion h2
              · rw [h4] at h2
                injection h2 with hc ht
                subst hc
                subst ht
                rcases h5 with h5 | h5
                · rw [hws] at h5; exact Bool.noConfusion h5
                · omega
            obtain ⟨c', run₂, rfl⟩ : ∃ c' run₂, run = c' :: run₂ := by
              cases run with
              | nil => exact absurd rfl hrun0
              | cons a b => exact ⟨a, b, rfl⟩
            have hc2 : c = c' ∧ t = run₂ ++ rest₂ := by
              rw [List.cons_append] at h2
              injection h2 with ha hb
              exact ⟨ha, hb⟩
            obtain ⟨rfl, ht⟩ := hc2
            cases h3 with
            | cons _ _ hwsc hadvc hrun₂ =>
            have hstep := lexLoop_run ws adv run₂ rest₂ hrun₂ h4 n'
              ((skipWs ws text cursor).cursor + c.utf8Size) (skipWs ws text cursor).cursor
              (by simp only [List.length_cons] at hrl ⊢; omega)
            rw [ht, hstep]
            have harith : (skipWs ws text cursor).cursor + c.utf8Size + utf8Bytes run₂ =
                (skipWs ws text cursor).cursor + utf8Bytes (c :: run₂) := by
              simp only [utf8Bytes_cons]
              omega
            rw [harith]
            cases hrest : rest₂ with
            | nil =>
                subst hrest
                obtain ⟨q, hq⟩ : ∃ q, n' - run₂.length = q + 1 := by
                  refine ⟨n' - run₂.length - 1, ?_⟩
                  simp only [List.length_cons] at hrl
                  omega
                rw [hq, lexLoop]
                simp [skipWs, List.map_cons]
            | cons d t₁ =>
                subst hrest
                have hcore := ih (d :: t₁)
                  (by simp only [List.length_cons] at hrl ⊢; omega)
                  (n' - run₂.length) m'
                  ((skipWs ws text cursor).cursor + utf8Bytes (c :: run₂))
                  (by simp only [List.length_cons] at hrl ⊢; omega)
                  (by simp only [List.length_cons] at hrl ⊢; omega)
                rw [hcore]
                simp only
                cases coalesce ws adv m' (d :: t₁)
                    ((skipWs ws text cursor).cursor + utf8Bytes (c :: run₂)) with
                | none => rfl
                | some o => simp

/-- **C4** (counterexample to the claim as stated).  With a spec under
which no rule matches and no closer is pending, the file `ab` is one
maximal run of unexpected code points extending to the end of the file;
the claim predicts exactly one `unexpected_token` diagnostic spanning
`[0, 2)`, but the driver emits none — the pending coalescer entry is
dropped at the `break` on end of input — although both code points are
appended as their own `UNEXPECTED` tokens. -/
theorem claim4_counterexample :
    lexLoop (fun c => c.isWhitespace) (fun _ => 0) 3 [('a' : Char), 'b'] 0 none =
      some ⟨[], [(rtUnexpected, 1), (rtUnexpected, 1)]⟩ := by
  decide

/-- **C4** (amended).  For every input, every whitespace predicate and
every cursor-advance behaviour of closer popping plus emission (an
arbitrary function of the remaining text), the driver loop coalesces
each maximal run of stuck code points that is followed by further input
— whether the run ends at whitespace or at a successful match — into
exactly one `unexpected_token` diagnostic spanning the whole run, emits
no diagnostic for a run that extends to the end of the file, and
appends every stuck code point as its own `UNEXPECTED` token: the
`coalesce` reference function computes exactly this segmentation. -/
theorem claim4_unexpected_coalescing (ws : Char → Bool) (adv : List Char → Nat)
    (text : List Char) (cursor n m : Nat) (hn : text.length < n) (hm : text.length < m) :
    ∃ out, coalesce ws adv m text cursor = some out ∧
      lexLoop ws adv n text cursor none = some out := by
  obtain ⟨out, hout⟩ := coalesce_total ws adv m text cursor hm
  refine ⟨out, hout, ?_⟩
  rw [lexLoop_eq_coalesce ws adv text.length text (le_refl _) n m cursor hn hm, hout]

/-- Witness for `claim4_unexpected_coalescing`: the file `a!b` under a
spec that consumes the `!` — the run `a` is ended by the successful
match, so its diagnostic is flushed through the advance branch, while
the trailing run `b` reaches the end of the file and gets none. -/
theorem claim4_unexpected_coalescing_witness :
    ∃ out, coalesce (fun c => c.isWhitespace)
        (fun l => if l.headD 'a' = '!' then 1 else 0) 10 [('a' : Char), '!', 'b'] 0 =
        some out ∧
      lexLoop (fun c => c.isWhitespace)
        (fun l => if l.headD 'a' = '!' then 1 else 0) 10 [('a' : Char), '!', 'b'] 0 none =
        some out :=
  claim4_unexpected_coalescing (fun c => c.isWhitespace)
    (fun l => if l.headD 'a' = '!' then 1 else 0) [('a' : Char), '!', 'b'] 0 10 10
    (by decide) (by decide)

end Ilex

namespace Byteyarn

/-- Little-endian byte composition. -/
def leNat : List Nat → Nat
  | [] => 0
  | b :: t => b ||| (leNat t <<< 8)

/-- Byte `i` of a natural number. -/
def byteAt (x i : Nat) : Nat := (x >>> (8 * i)) % 2 ^ 8

theorem testBit_byteAt (x i j : Nat) :
    (byteAt x i).testBit j = (decide (j < 8) && x.testBit (8 * i + j)) := by
  rw [byteAt, Nat.testBit_mod_two_pow, Nat.testBit_shiftRight]

theorem byteAt_or (x y i : Nat) : byteAt (x ||| y) i = byteAt x i ||| byteAt y i := by
  apply Nat.eq_of_testBit_eq
  intro j
  rw [Nat.testBit_or, testBit_byteAt, testBit_byteAt, testBit_byteAt, Nat.testBit_or,
    Bool.and_or_distrib_left]

theorem byteAt_shiftLeft_bytes (x k i : Nat) :
    byteAt (x <<< (8 * k)) i = if k ≤ i then byteAt x (i - k) else 0 := by
  apply Nat.eq_of_testBit_eq
  intro j
  by_cases hk : k ≤ i
  · rw [if_pos hk, testBit_byteAt, testBit_byteAt, Nat.testBit_shiftLeft]
    have h1 : 8 * k ≤ 8 * i + j := by omega
    have h2 : 8 * i + j - 8 * k = 8 * (i - k) + j := by omega
    simp [h1, h2]
  · rw [if_neg hk, testBit_byteAt, Nat.testBit_shiftLeft]
    by_cases hj : j < 8
    · have h3 : ¬ (8 * k ≤ 8 * i + j) := by omega
      simp [hj, h3]
    · simp [hj]

theorem byteAt_zero (i : Nat) : byteAt 0 i = 0 := by simp [byteAt]

theorem byteAt_leNat :
    ∀ (l : List Nat), (∀ b ∈ l, b < 2 ^ 8) → ∀ i, byteAt (leNat l) i = l.getD i 0 := by
  intro l
  induction l with
  | nil => intro _ i; simp [leNat, byteAt]
  | cons b t ih =>
      intro h i
      have hb : b < 2 ^ 8 := h b (List.mem_cons_self ..)
      apply Nat.eq_of_testBit_eq
      intro j
      rw [testBit_byteAt]
      rw [show leNat (b :: t) = b ||| leNat t <<< 8 from rfl]
      rw [Nat.testBit_or, Nat.testBit_shiftLeft]
      cases i with
      | zero =>
          simp only [Nat.mul_zero, Nat.zero_add, List.getD_cons_zero]
          by_cases hj : j < 8
          · have h3 : ¬ (8 ≤ j) := by omega
            simp [hj, h3]
          · have hbj : b.testBit j = false :=
              Nat.testBit_lt_two_pow
                (lt_of_lt_of_le hb (Nat.pow_le_pow_right (by norm_num) (by omega)))
            simp [hj, hbj]
      | succ i =>
          have hbig : b.testBit (8 * (i + 1) + j) = false :=
            Nat.testBit_lt_two_pow
              (lt_of_lt_of_le hb (Nat.pow_le_pow_right (by norm_num) (by omega)))
          have h8 : 8 ≤ 8 * (i + 1) + j := by omega
          have harg : 8 * (i + 1) + j - 8 = 8 * i + j := by omega
          have hrec := ih (fun x hx => h x (List.mem_cons_of_mem b hx)) i
          have h2 : (t.getD i 0).testBit j = (decide (j < 8) && (leNat t).testBit (8 * i + j)) := by
            rw [← hrec, testBit_byteAt]
          simp only [List.getD_cons_succ]
          rw [h2]
          simp [hbig, h8, harg]

theorem byteAt_byte {x : Nat} (hx : x < 2 ^ 8) (i : Nat) :
    byteAt x i = if i = 0 then x else 0 := by
  have hx' : x = leNat [x] := by simp [leNat]
  rw [hx', byteAt_leNat [x] (by simpa using hx) i]
  cases i with
  | zero => simp [leNat]
  | succ i => simp [leNat]

theorem byteAt_shiftLeft_bytes' (x k i : Nat) :
    byteAt (x <<< (k * 8)) i = if k ≤ i then byteAt x (i - k) else 0 := by
  rw [Nat.mul_comm]
  exact byteAt_shiftLeft_bytes x k i

theorem getD_take (b : List Nat) (k i : Nat) :
    (b.take k).getD i 0 = if i < k then b.getD i 0 else 0 := by
  by_cases h : i < k
  · rw [if_pos h]
    rw [List.getD_eq_getD_get?, List.getD_eq_getD_get?]
    rw [List.get?_eq_getElem?, List.get?_eq_getElem?]
    rw [List.getElem?_take, if_pos h]
  · rw [if_neg h]
    apply List.getD_eq_default
    have : (b.take k).length ≤ k := by simp
    omega

theorem getD_drop (b : List Nat) (k i : Nat) :
    (b.drop k).getD i 0 = b.getD (k + i) 0 := by
  rw [List.getD_eq_getD_get?, List.getD_eq_getD_get?]
  rw [List.get?_eq_getElem?, List.get?_eq_getElem?]
  rw [List.getElem?_drop]

theorem getD_lt_256 (b : List Nat) (hb : ∀ x ∈ b, x < 2 ^ 8) (k : Nat) :
    b.getD k 0 < 2 ^ 8 := by
  by_cases h : k < b.length
  · rw [List.getD_eq_getElem b 0 h]
    exact hb _ (List.getElem_mem h)
  · rw [List.getD_eq_default _ _ (by omega)]
    norm_num

/-- The two-overlapping-loads pattern shared by the `len > 8` (64-bit
loads) and `len > 3` (32-bit loads) branches of
`from_slice_inlined_unchecked`: read `w` bytes from the start and `w`
bytes ending at `len`, and or the second into place. -/
theorem twoLoad_bytes (b : List Nat) (hb : ∀ x ∈ b, x < 2 ^ 8) (w : Nat)
    (hw : 0 < w) (hwle : w ≤ b.length) (h2w : b.length ≤ 2 * w) (i : Nat) :
    byteAt (leNat (b.take w) |||
        (leNat ((b.drop (b.length - w)).take w) <<< ((b.length - w) * 8))) i =
      if i < b.length then b.getD i 0 else 0 := by
  have hbt : ∀ x ∈ b.take w, x < 2 ^ 8 := fun x hx => hb x (List.take_subset w b hx)
  have hbd : ∀ x ∈ (b.drop (b.length - w)).take w, x < 2 ^ 8 := fun x hx =>
    hb x (List.drop_subset _ b (List.take_subset _ _ hx))
  rw [byteAt_or, byteAt_shiftLeft_bytes', byteAt_leNat _ hbt, getD_take]
  by_cases hki : b.length - w ≤ i
  · rw [if_pos hki, byteAt_leNat _ hbd, getD_take, getD_drop]
    by_cases h1 : i < w
    · rw [if_pos h1]
      by_cases h2 : i - (b.length - w) < w
      · rw [if_pos h2]
        have he : b.length - w + (i - (b.length - w)) = i := by omega
        rw [he]
        rw [Nat.or_self _]
        rw [if_pos (by omega)]
      · omega
    · rw [if_neg h1]
      by_cases h2 : i - (b.length - w) < w
      · rw [if_pos h2]
        have he : b.length - w + (i - (b.length - w)) = i := by omega
        rw [he, Nat.zero_or _]
        rw [if_pos (by omega)]
      · rw [if_neg h2, Nat.zero_or _]
        rw [if_neg (by omega)]
  · rw [if_neg hki]
    rw [if_pos (by omega), Nat.or_zero _]
    rw [if_pos (by omega)]

/-- The one-to-three-bytes pattern of the `len > 0` branch. -/
theorem threeLoad_bytes (b : List Nat) (hb : ∀ x ∈ b, x < 2 ^ 8)
    (h1 : 0 < b.length) (h2 : b.length ≤ 3) (i : Nat) :
    byteAt (b.getD 0 0 ||| (b.getD (b.length / 2) 0 <<< (b.length / 2 * 8)) |||
        (b.getD (b.length - 1) 0 <<< ((b.length - 1) * 8))) i =
      if i < b.length then b.getD i 0 else 0 := by
  have g0 := getD_lt_256 b hb 0
  have g1 := getD_lt_256 b hb (b.length / 2)
  have g2 := getD_lt_256 b hb (b.length - 1)
  rw [byteAt_or, byteAt_or, byteAt_shiftLeft_bytes', byteAt_shiftLeft_bytes',
    byteAt_byte g0, byteAt_byte g1, byteAt_byte g2]
  rcases Nat.lt_or_ge i 4 with hi | hi
  · interval_cases hL : b.length <;> interval_cases i <;>
      norm_num [Nat.or_self _, Nat.zero_or _, Nat.or_zero _]
  · have hA : ¬ i - b.length / 2 = 0 := by omega
    have hB : ¬ i - (b.length - 1) = 0 := by omega
    rw [if_neg (show ¬ i = 0 by omega),
      if_pos (show b.length / 2 ≤ i by omega), if_neg hA,
      if_pos (show b.length - 1 ≤ i by omega), if_neg hB,
      if_neg (show ¬ i < b.length by omega)]
    decide

/-- Constant `RawYarn::SSO_LEN` on a 64-bit architecture: `size_of::<usize>() * 2 - 1
= 15`, which is below `max_len = 1 << (8 - 2) = 64`. -/
def SSO_LEN : Nat := 15

/-- Constant `RawYarn::SMALL = 0b11`. -/
def SMALL : Nat := 3

/-- Constant `RawYarn::SHIFT8 = u8::BITS - 2 = 6`. -/
def SHIFT8 : Nat := 6

/-- The `Small` layout of a `RawYarn`: `data: [u8; 15]` plus a tagged
length byte. Bytes are modelled as `Nat` below `2 ^ 8`. -/
structure Small where
  data : List Nat
  len : Nat
deriving Repr, DecidableEq

/-- The tagged length byte: `(len as u8) | Self::SMALL << Self::SHIFT8`. -/
def taggedLen (len : Nat) : Nat := len ||| SMALL <<< SHIFT8

/-- The `register` computed by the 16-byte specialization of
`from_slice_inlined_unchecked`: a binary search on `len` that reads the
input with two overlapping 8-byte loads, two overlapping 4-byte loads,
or three single-byte loads, each shifted into its little-endian
position and ored together. -/
def fastRegister (b : List Nat) : Nat :=
  if b.length > 8 then
    leNat (b.take 8) |||
      (leNat ((b.drop (b.length - 8)).take 8) <<< ((b.length - 8) * 8))
  else if b.length > 3 then
    leNat (b.take 4) |||
      (leNat ((b.drop (b.length - 4)).take 4) <<< ((b.length - 4) * 8))
  else if b.length > 0 then
    b.getD 0 0 ||| (b.getD (b.length / 2) 0 <<< (b.length / 2 * 8)) |||
      (b.getD (b.length - 1) 0 <<< ((b.length - 1) * 8))
  else 0

/-- The 16-byte path of `from_slice_inlined_unchecked`: transmute the
`register` into a `Small` (its `data` field receives the low 15
little-endian bytes of the register) and overwrite `len` with the
tagged length. -/
def from_slice_inlined_fast (b : List Nat) : Small where
  data := (List.range SSO_LEN).map (byteAt (fastRegister b))
  len := taggedLen b.length

/-- The generic path of `from_slice_inlined_unchecked`: `data` starts
as `[0; SSO_LEN]` and a byte-by-byte loop copies `b[i]` into `data[i]`
for `i < len`. -/
def from_slice_inlined_generic (b : List Nat) : Small where
  data := (List.range SSO_LEN).map fun i => if i < b.length then b.getD i 0 else 0
  len := taggedLen b.length

/-- Accessor `RawYarn::kind` on a `Small` yarn: the top two bits of the length
byte (`hi_byte >> Self::SHIFT8`). -/
def Small.kind (s : Small) : Nat := s.len >>> SHIFT8

/-- Accessor `RawYarn::len` on a `Small` yarn: `s.len as usize & !Self::MASK8`,
i.e. the low six bits of the length byte. -/
def Small.length (s : Small) : Nat := s.len &&& 63

/-- Accessor `RawYarn::as_slice` on a `Small` yarn: the first `len()` bytes of
`data`. -/
def Small.as_slice (s : Small) : List Nat := s.data.take s.length

theorem fastRegister_bytes (b : List Nat) (hb : ∀ x ∈ b, x < 2 ^ 8)
    (hlen : b.length ≤ SSO_LEN) (i : Nat) :
    byteAt (fastRegister b) i = if i < b.length then b.getD i 0 else 0 := by
  have hlen' : b.length ≤ 15 := hlen
  by_cases h8 : b.length > 8
  · rw [fastRegister, if_pos h8]
    exact twoLoad_bytes b hb 8 (by norm_num) (by omega) (by omega) i
  · by_cases h4 : b.length > 3
    · rw [fastRegister, if_neg h8, if_pos h4]
      exact twoLoad_bytes b hb 4 (by norm_num) (by omega) (by omega) i
    · by_cases h0 : b.length > 0
      · rw [fastRegister, if_neg h8, if_neg h4, if_pos h0]
        exact threeLoad_bytes b hb (by omega) (by omega) i
      · rw [fastRegister, if_neg h8, if_neg h4, if_neg h0, byteAt_zero]
        rw [if_neg (by omega)]

theorem taggedLen_kind (len : Nat) (h : len ≤ 15) :
    taggedLen len >>> SHIFT8 = SMALL := by
  interval_cases len <;> decide

theorem taggedLen_low (len : Nat) (h : len ≤ 15) :
    taggedLen len &&& 63 = len := by
  interval_cases len <;> decide

/-- **C10.**  For every byte sequence of length at most `SSO_LEN`, the
specialized 16-byte path of `from_slice_inlined_unchecked` — built from
overlapping unaligned loads ored into a single register — produces
exactly the same `Small` value as the generic byte-by-byte copy loop,
and the result is a `SMALL`-tagged yarn whose `len()` equals the input
length and whose `as_slice()` is byte-for-byte the input. -/
theorem claim10_inlined_small (b : List Nat) (hb : ∀ x ∈ b, x < 2 ^ 8)
    (hlen : b.length ≤ SSO_LEN) :
    from_slice_inlined_fast b = from_slice_inlined_generic b ∧
    (from_slice_inlined_fast b).kind = SMALL ∧
    (from_slice_inlined_fast b).length = b.length ∧
    (from_slice_inlined_fast b).as_slice = b := by
  have hlen' : b.length ≤ 15 := hlen
  have hdata : (List.range SSO_LEN).map (byteAt (fastRegister b)) =
      (List.range SSO_LEN).map fun i => if i < b.length then b.getD i 0 else 0 := by
    apply List.map_congr_left
    intro i _
    exact fastRegister_bytes b hb hlen i
  refine ⟨?_, ?_, ?_, ?_⟩
  · rw [from_slice_inlined_fast, from_slice_inlined_generic]
    rw [Small.mk.injEq]
    exact ⟨hdata, rfl⟩
  · show taggedLen b.length >>> SHIFT8 = SMALL
    exact taggedLen_kind _ hlen'
  · show taggedLen b.length &&& 63 = b.length
    exact taggedLen_low _ hlen'
  · show ((List.range SSO_LEN).map (byteAt (fastRegister b))).take
      (taggedLen b.length &&& 63) = b
    rw [taggedLen_low _ hlen', hdata, ← List.map_take, List.take_range]
    have hmin : min b.length SSO_LEN = b.length := by
      have : SSO_LEN = 15 := rfl
      omega
    rw [hmin]
    apply List.ext_getElem
    · simp
    · intro i h1 h2
      simp only [List.getElem_map, List.getElem_range]
      have hib : i < b.length := by simpa using h2
      rw [if_pos hib, List.getD_eq_getElem b 0 hib]

theorem claim10_inlined_small_witness :
    (∀ x ∈ [72, 101, 108, 108, 111, 44, 32, 121, 97, 114, 110, 33], x < 2 ^ 8) ∧
    ([72, 101, 108, 108, 111, 44, 32, 121, 97, 114, 110, 33] : List Nat).length ≤ SSO_LEN ∧
    (from_slice_inlined_fast [72, 101, 108, 108, 111, 44, 32, 121, 97, 114, 110, 33] =
        from_slice_inlined_generic [72, 101, 108, 108, 111, 44, 32, 121, 97, 114, 110, 33] ∧
      (from_slice_inlined_fast [72, 101, 108, 108, 111, 44, 32, 121, 97, 114, 110, 33]).kind = SMALL ∧
      (from_slice_inlined_fast [72, 101, 108, 108, 111, 44, 32, 121, 97, 114, 110, 33]).length =
        ([72, 101, 108, 108, 111, 44, 32, 121, 97, 114, 110, 33] : List Nat).length ∧
      (from_slice_inlined_fast [72, 101, 108, 108, 111, 44, 32, 121, 97, 114, 110, 33]).as_slice =
        [72, 101, 108, 108, 111, 44, 32, 121, 97, 114, 110, 33]) :=
  ⟨by decide, by decide,
    claim10_inlined_small [72, 101, 108, 108, 111, 44, 32, 121, 97, 114, 110, 33]
      (by decide) (by decide)⟩

end Byteyarn
